import Mathlib

/-!
Verification of the incremental binary encoder's array builder
(`src/builder/array.rs` of the yason repository).

The builder writes a self-describing binary tree format into one growable
byte buffer shared by a chain of nested builders.  The array builder itself
(`InnerArrayBuilder`) is embedded faithfully from the source.  The byte-level
primitives (`push_data_type`, `skip_size`, `push_u16`, `write_offset`,
`write_total_size`, `push_string`, `push_number`, `try_reserve`), the shared
`BytesWrapper` state and the object builder live in modules that are not part
of the sources at hand; those are modelled from the specification, with the
model noted on each definition.

Bytes are modelled as `List Nat` (each byte a value below 256, enforced by
the writers which reduce modulo 256).  Machine-integer casts of the source
(`offset as u32`, `total_size as i32`) appear as explicit `% 2 ^ 32`
reductions inside the little-endian encoders.  Fallible allocation is
modelled by an explicit oracle: a list of booleans consumed by each
`try_reserve` call, an empty oracle meaning success.
-/

namespace Yason

/-- Width in bytes of a type tag (`DATA_TYPE_SIZE` in `binary.rs`).
Modelled from the spec: the constants module is not among the sources;
the spec fixes the layout `TypeTag(1) Size(4) ElementCount(2)` and
5-byte value entries. -/
def DATA_TYPE_SIZE : Nat := 1

/-- Width in bytes of the back-patched size field (`ARRAY_SIZE`).
Modelled from the spec: 4-byte signed integer. -/
def ARRAY_SIZE : Nat := 4

/-- Width in bytes of the element-count field (`ELEMENT_COUNT_SIZE`).
Modelled from the spec: 2-byte unsigned integer. -/
def ELEMENT_COUNT_SIZE : Nat := 2

/-- Width in bytes of one value entry (`VALUE_ENTRY_SIZE`).
Modelled from the spec: `[type tag: 1][offset-or-inline: 4]`. -/
def VALUE_ENTRY_SIZE : Nat := 5

/-- Worst-case width of a string length prefix (`MAX_DATA_LENGTH_SIZE`).
Modelled from the spec: variable, bounded length prefix. -/
def MAX_DATA_LENGTH_SIZE : Nat := 4

/-- Width of the number length prefix (`NUMBER_LENGTH_SIZE`).
Modelled from the spec: `Number := LengthPrefix(1) OpaqueDecimalBytes`. -/
def NUMBER_LENGTH_SIZE : Nat := 1

/-- Maximum encoded size of the opaque decimal codec
(`decimal_rs::MAX_BINARY_SIZE`).  Modelled from the spec: the codec is an
external collaborator with a statically known maximum encoded size; the
value only feeds capacity reservation. -/
def MAX_BINARY_SIZE : Nat := 28

/-- Maximum representable string length.  Modelled from the spec: the
length-prefixed string writer is bounded by a maximum representable
length and surfaces an error beyond it. -/
def MAX_STRING_LEN : Nat := 2 ^ 31

/-- Value type tags.  Modelled from the spec: the numeric tag values live in
the absent `binary.rs`; the chosen numbers are arbitrary but fixed and
pairwise distinct, which is all the development relies on. -/
inductive DataType where
  | Object
  | Array
  | String
  | Number
  | Bool
  | Null
deriving DecidableEq

/-- Numeric value of a type tag byte. -/
def dtTag : DataType → Nat
  | .Object => 1
  | .Array => 2
  | .String => 3
  | .Number => 4
  | .Bool => 5
  | .Null => 6

/-- Build errors (`BuildError` in the source).  `TryReserveError` stands for
the allocation failure propagated from `Vec::try_reserve`;
`StringTooLong` models the bounded string writer's own error. -/
inductive BuildError where
  | InnerUncompletedError
  | InconsistentElementCount (expected actual : Nat)
  | TryReserveError
  | StringTooLong
deriving DecidableEq

deriving instance DecidableEq for Except

/-- Shared build state.  Modelled from the spec: `BytesWrapper` (absent
`builder/mod.rs`) wraps the byte buffer together with a nesting-depth
counter shared by every builder on that buffer.  `allocFuel` is the
allocation oracle: each `try_reserve` consumes one boolean, `false`
meaning the reservation fails; an exhausted oracle always succeeds. -/
structure SharedState where
  bytes : List Nat
  depth : Nat
  allocFuel : List Bool
deriving DecidableEq

/-- The array builder's own fields (`InnerArrayBuilder` in `array.rs`,
minus the wrapped buffer which lives in `SharedState`). -/
structure ArrState where
  element_count : Nat
  start_pos : Nat
  value_entry_pos : Nat
  value_count : Nat
  depth : Nat
  bytes_init_len : Nat
deriving DecidableEq

/-- The object builder's own fields.  Modelled from the spec: the object
builder (absent `builder/object.rs`) follows the same header, entry and
finish protocol as the array builder, with a parallel key-entry region
and a caller-supplied key-sorted flag. -/
structure ObjState where
  element_count : Nat
  start_pos : Nat
  key_entry_pos : Nat
  value_entry_pos : Nat
  value_count : Nat
  depth : Nat
  bytes_init_len : Nat
  key_sorted : Bool
deriving DecidableEq

/-- Width of one key entry.  Modelled from the spec: a parallel key-entry
region locates each key; the exact width is not pinned by the spec, a
4-byte key offset is used. -/
def KEY_ENTRY_SIZE : Nat := 4

/-- Reading one byte of the buffer, out-of-range positions reading 0. -/
def getAt (bs : List Nat) (i : Nat) : Nat := bs.getD i 0

/-- In-place overwrite of consecutive buffer bytes starting at `pos`
(writes past the end are dropped, as `List.set` is).  This models the
fixed-position writers of `vec.rs`, which never change the length. -/
def writeBytesAt : List Nat → Nat → List Nat → List Nat
  | bs, _, [] => bs
  | bs, pos, b :: rest => writeBytesAt (bs.set pos b) (pos + 1) rest

/-- Little-endian bytes of a 16-bit value (`push_u16`).
Modelled from the spec: endianness is an implementation choice that must be
consistent; little-endian is used throughout. -/
def le16 (n : Nat) : List Nat := [n % 256, n / 256 % 256]

/-- Little-endian bytes of a 32-bit value.  The truncation of the source's
`as u32` / `as i32` casts is inherent: every byte depends only on
`n % 2 ^ 32`. -/
def le32 (n : Nat) : List Nat :=
  [n % 256, n / 2 ^ 8 % 256, n / 2 ^ 16 % 256, n / 2 ^ 24 % 256]

/-- Reading back a little-endian 32-bit field at `pos`. -/
def readLe32 (bs : List Nat) (pos : Nat) : Nat :=
  getAt bs pos + 2 ^ 8 * getAt bs (pos + 1) + 2 ^ 16 * getAt bs (pos + 2) +
    2 ^ 24 * getAt bs (pos + 3)

/-- Outcome of the allocation oracle for the next `try_reserve`. -/
def reserveOk : List Bool → Bool
  | [] => true
  | b :: _ => b

/-- Fallible capacity reservation (`Vec::try_reserve`).  Modelled from the
spec: buffer growth fails with an out-of-memory indication instead of
aborting; the requested amount does not influence the model's oracle. -/
def tryReserve (s : SharedState) (_additional : Nat) :
    Except BuildError Unit × SharedState :=
  if reserveOk s.allocFuel then
    (.ok (), { s with allocFuel := s.allocFuel.tail })
  else
    (.error .TryReserveError, s)

/-- Variable-width string length prefix.  Modelled from the spec: a bounded,
variable length prefix; one byte for short strings, four otherwise. -/
def lenPfxBytes (n : Nat) : List Nat :=
  if n < 128 then [n]
  else [n % 128 + 128, n / 128 % 256, n / 32768 % 256, n / 8388608 % 256]

/-- Length-prefixed string write (`push_string` of `vec.rs`).  Modelled from
the spec: bounded by a maximum representable length, propagating an error
beyond it, and writing nothing in that case. -/
def pushStringPrim (v : List Nat) (s : SharedState) :
    Except BuildError Unit × SharedState :=
  if v.length < MAX_STRING_LEN then
    (.ok (), { s with bytes := s.bytes ++ (lenPfxBytes v.length ++ v) })
  else
    (.error .StringTooLong, s)

/-- An opaque decimal number: only its encoded byte form matters to the
builder.  Modelled from the spec: the decimal codec is an external,
opaque collaborator. -/
structure Number where
  enc : List Nat
deriving DecidableEq

/-- Encoded form appended by `push_number` of `vec.rs`: a one-byte length
prefix followed by the opaque bytes.  Modelled from the spec. -/
def numberBytes (x : Number) : List Nat := x.enc.length % 256 :: x.enc

/-- Fixed-position 4-byte write (`write_offset` / `write_total_size` of
`vec.rs`).  Modelled from the spec: offsets and the size field are 4-byte
fields at known positions; both casts of the source (`u32`, `i32`)
truncate modulo `2 ^ 32`, which `le32` performs byte by byte. -/
def writeOffset (bs : List Nat) (off : Nat) (pos : Nat) : List Nat :=
  writeBytesAt bs pos (le32 off)

/-- The header bytes appended by `InnerArrayBuilder::try_new`: type tag,
4-byte size placeholder, 2-byte element count, zeroed value-entry table. -/
def arrHeader (ec : Nat) : List Nat :=
  dtTag .Array :: 0 :: 0 :: 0 :: 0 ::
    (le16 ec ++ List.replicate (VALUE_ENTRY_SIZE * ec) 0)

/-- `InnerArrayBuilder::try_new` (lines 25-50 of `array.rs`): reserve, write
the provisional header, reserve the entry table, record `start_pos` at the
first byte of the element count, snapshot the incremented shared depth. -/
def tryNewArr (ec : Nat) (s : SharedState) :
    Except BuildError ArrState × SharedState :=
  let bytes_init_len := s.bytes.length
  match tryReserve s (DATA_TYPE_SIZE + ARRAY_SIZE + ELEMENT_COUNT_SIZE +
      VALUE_ENTRY_SIZE * ec) with
  | (.error e, s1) => (.error e, s1)
  | (.ok _, s1) =>
    let bytes1 := s1.bytes ++ [dtTag .Array] ++ List.replicate ARRAY_SIZE 0
    let start_pos := bytes1.length
    let bytes2 := bytes1 ++ le16 ec
    let value_entry_pos := bytes2.length
    let bytes3 := bytes2 ++ List.replicate (VALUE_ENTRY_SIZE * ec) 0
    let depth := s1.depth + 1
    (.ok { element_count := ec, start_pos := start_pos,
           value_entry_pos := value_entry_pos, value_count := 0,
           depth := depth, bytes_init_len := bytes_init_len },
     { s1 with bytes := bytes3, depth := depth })

/-- `InnerArrayBuilder::finish` (lines 53-72): nesting check, count check,
back-patch of the total size at `start_pos - ARRAY_SIZE`, depth decrement. -/
def finishArr (a : ArrState) (s : SharedState) :
    Except BuildError Nat × SharedState :=
  if a.depth ≠ s.depth then (.error .InnerUncompletedError, s)
  else if a.value_count ≠ a.element_count then
    (.error (.InconsistentElementCount a.element_count a.value_count), s)
  else
    let total_size := s.bytes.length - a.start_pos
    (.ok a.bytes_init_len,
     { s with bytes := writeOffset s.bytes total_size (a.start_pos - ARRAY_SIZE),
              depth := s.depth - 1 })

/-- `InnerArrayBuilder::push_value` (lines 75-92): the single dispatch point.
Nesting check, type-tag write into the pending entry, offset computation
(buffer length minus `start_pos`), delegation to the type-specific writer
`f`, then entry-cursor and value-count advance.  An error from `f` leaves
the builder's fields as they were, but keeps `f`'s partial buffer writes,
mirroring the in-place mutation of the source. -/
def pushValue (a : ArrState) (dt : DataType)
    (f : Nat → Nat → SharedState → Except BuildError Unit × SharedState)
    (s : SharedState) : Except BuildError Unit × ArrState × SharedState :=
  if a.depth ≠ s.depth then (.error .InnerUncompletedError, a, s)
  else
    let s1 : SharedState := { s with bytes := s.bytes.set a.value_entry_pos (dtTag dt) }
    let offset := s1.bytes.length - a.start_pos
    match f offset a.value_entry_pos s1 with
    | (.error e, s2) => (.error e, a, s2)
    | (.ok _, s2) =>
      (.ok (), { a with value_entry_pos := a.value_entry_pos + VALUE_ENTRY_SIZE,
                        value_count := a.value_count + 1 }, s2)

/-- The header bytes appended by the object builder's constructor.
Modelled from the spec: same shape as the array header with an additional
zeroed key-entry region before the value-entry table. -/
def objHeader (ec : Nat) : List Nat :=
  dtTag .Object :: 0 :: 0 :: 0 :: 0 ::
    (le16 ec ++ List.replicate ((KEY_ENTRY_SIZE + VALUE_ENTRY_SIZE) * ec) 0)

/-- `InnerObjectBuilder::try_new`.  Modelled from the spec: the object
builder (absent `object.rs`) follows the array builder's protocol — write
the provisional header, reserve the key- and value-entry tables, record
the node start, increment and snapshot the shared depth. -/
def tryNewObj (ec : Nat) (ks : Bool) (s : SharedState) :
    Except BuildError ObjState × SharedState :=
  let bytes_init_len := s.bytes.length
  match tryReserve s (DATA_TYPE_SIZE + ARRAY_SIZE + ELEMENT_COUNT_SIZE +
      (KEY_ENTRY_SIZE + VALUE_ENTRY_SIZE) * ec) with
  | (.error e, s1) => (.error e, s1)
  | (.ok _, s1) =>
    let bytes1 := s1.bytes ++ [dtTag .Object] ++ List.replicate ARRAY_SIZE 0
    let start_pos := bytes1.length
    let bytes2 := bytes1 ++ le16 ec
    let key_entry_pos := bytes2.length
    let value_entry_pos := key_entry_pos + KEY_ENTRY_SIZE * ec
    let bytes3 := bytes2 ++ List.replicate ((KEY_ENTRY_SIZE + VALUE_ENTRY_SIZE) * ec) 0
    let depth := s1.depth + 1
    (.ok { element_count := ec, start_pos := start_pos,
           key_entry_pos := key_entry_pos, value_entry_pos := value_entry_pos,
           value_count := 0, depth := depth, bytes_init_len := bytes_init_len,
           key_sorted := ks },
     { s1 with bytes := bytes3, depth := depth })

/-- `InnerObjectBuilder::finish`.  Modelled from the spec: same finish
protocol as the array builder — nesting check, count check, size
back-patch, depth decrement. -/
def finishObj (o : ObjState) (s : SharedState) :
    Except BuildError Nat × SharedState :=
  if o.depth ≠ s.depth then (.error .InnerUncompletedError, s)
  else if o.value_count ≠ o.element_count then
    (.error (.InconsistentElementCount o.element_count o.value_count), s)
  else
    let total_size := s.bytes.length - o.start_pos
    (.ok o.bytes_init_len,
     { s with bytes := writeOffset s.bytes total_size (o.start_pos - ARRAY_SIZE),
              depth := s.depth - 1 })

/-- `InnerArrayBuilder::push_object` (lines 95-104): write the entry's
offset, then construct the nested object builder on the same buffer. -/
def pushObject (a : ArrState) (ec : Nat) (ks : Bool) (s : SharedState) :
    Except BuildError ObjState × ArrState × SharedState :=
  match pushValue a .Object
      (fun off vep s1 => (.ok (), { s1 with
        bytes := writeOffset s1.bytes off (vep + DATA_TYPE_SIZE) })) s with
  | (.error e, a1, s1) => (.error e, a1, s1)
  | (.ok _, a1, s1) =>
    match tryNewObj ec ks s1 with
    | (.error e, s2) => (.error e, a1, s2)
    | (.ok child, s2) => (.ok child, a1, s2)

/-- `InnerArrayBuilder::push_array` (lines 107-116): write the entry's
offset, then construct the nested array builder on the same buffer. -/
def pushArray (a : ArrState) (ec : Nat) (s : SharedState) :
    Except BuildError ArrState × ArrState × SharedState :=
  match pushValue a .Array
      (fun off vep s1 => (.ok (), { s1 with
        bytes := writeOffset s1.bytes off (vep + DATA_TYPE_SIZE) })) s with
  | (.error e, a1, s1) => (.error e, a1, s1)
  | (.ok _, a1, s1) =>
    match tryNewArr ec s1 with
    | (.error e, s2) => (.error e, a1, s2)
    | (.ok child, s2) => (.ok child, a1, s2)

/-- `InnerArrayBuilder::push_string` (lines 119-128): write the entry's
offset, reserve worst-case space, then append the length-prefixed text. -/
def pushString (a : ArrState) (v : List Nat) (s : SharedState) :
    Except BuildError Unit × ArrState × SharedState :=
  pushValue a .String
    (fun off vep s1 =>
      let s2 : SharedState := { s1 with
        bytes := writeOffset s1.bytes off (vep + DATA_TYPE_SIZE) }
      match tryReserve s2 (MAX_DATA_LENGTH_SIZE + v.length) with
      | (.error e, s3) => (.error e, s3)
      | (.ok _, s3) => pushStringPrim v s3) s

/-- `InnerArrayBuilder::push_number` (lines 131-140): write the entry's
offset, reserve worst-case space, then append the encoded number. -/
def pushNumber (a : ArrState) (x : Number) (s : SharedState) :
    Except BuildError Unit × ArrState × SharedState :=
  pushValue a .Number
    (fun off vep s1 =>
      let s2 : SharedState := { s1 with
        bytes := writeOffset s1.bytes off (vep + DATA_TYPE_SIZE) }
      match tryReserve s2 (MAX_BINARY_SIZE + NUMBER_LENGTH_SIZE) with
      | (.error e, s3) => (.error e, s3)
      | (.ok _, s3) => (.ok (), { s3 with bytes := s3.bytes ++ numberBytes x })) s

/-- `InnerArrayBuilder::push_bool` (lines 143-150): the boolean is inlined
into the entry's 4-byte field (`value as u32`); no data bytes. -/
def pushBool (a : ArrState) (v : Bool) (s : SharedState) :
    Except BuildError Unit × ArrState × SharedState :=
  pushValue a .Bool
    (fun _off vep s1 => (.ok (), { s1 with
      bytes := writeOffset s1.bytes (if v then 1 else 0) (vep + DATA_TYPE_SIZE) })) s

/-- `InnerArrayBuilder::push_null` (lines 153-156): only the entry's type
tag is written; the writer does nothing. -/
def pushNull (a : ArrState) (s : SharedState) :
    Except BuildError Unit × ArrState × SharedState :=
  pushValue a .Null (fun _ _ s1 => (.ok (), s1)) s

/-- The combined entry write of one `push_value` call: type tag into the
entry slot, 4-byte field right after it.  The buffer length is unchanged. -/
def entryWr (bs : List Nat) (vep : Nat) (t : Nat) (fv : Nat) : List Nat :=
  writeBytesAt (bs.set vep t) (vep + 1) (le32 fv)

/-- Field advance of one successful push: entry cursor by one slot,
value count by one. -/
def bump (a : ArrState) : ArrState :=
  { a with value_entry_pos := a.value_entry_pos + VALUE_ENTRY_SIZE,
           value_count := a.value_count + 1 }

/-- One push operation of a build script: a scalar, an embedded array built
from its own script, or an embedded (empty) object. -/
inductive Op where
  | ostr (v : List Nat)
  | onum (x : Number)
  | obool (b : Bool)
  | onull
  | oarr (sub : List Op)
  | oobj (ks : Bool)

/-- Whether an entry of this kind carries an offset into the data region
(composite, string, number) rather than an inline value (bool, null). -/
def Op.carriesOffset : Op → Bool
  | .ostr _ => true
  | .onum _ => true
  | .obool _ => false
  | .onull => false
  | .oarr _ => true
  | .oobj _ => true

/-- The op at position `k` of a script (`onull`, carrying no offset, when
out of range). -/
def opAt (ops : List Op) (k : Nat) : Op := ops.getD k .onull

/-- Outcome type of a driver run: the source-level result together with the
builder and shared state left behind. -/
abbrev RunRes : Type :=
  Option (Except BuildError Unit × ArrState × SharedState)

/-- Sequencing a push result into a driver continuation: an error is
surfaced with the states the failing push left behind. -/
def stepPush {β : Type} (res : Except BuildError β × ArrState × SharedState)
    (k : β → ArrState → SharedState → RunRes) : RunRes :=
  match res with
  | (.error e, a1, s1) => some (.error e, a1, s1)
  | (.ok x, a1, s1) => k x a1 s1

/-- Sequencing a finish result (of a nested builder) into a driver
continuation; `a1` is the enclosing builder the run continues with. -/
def stepFin (res : Except BuildError Nat × SharedState) (a1 : ArrState)
    (k : SharedState → RunRes) : RunRes :=
  match res with
  | (.error e, s1) => some (.error e, a1, s1)
  | (.ok _, s1) => k s1

/-- Sequencing a nested sub-run into a driver continuation. -/
def stepRun (res : RunRes) (a1 : ArrState)
    (k : ArrState → SharedState → RunRes) : RunRes :=
  match res with
  | none => none
  | some (.error e, _, s2) => some (.error e, a1, s2)
  | some (.ok _, c2, s2) => k c2 s2

/-- Fuel-indexed driver running a build script against a builder: each list
element is one push on that builder, embedded arrays recursively run
their sub-script on the nested builder and finish it, embedded objects
are pushed empty and finished.  `none` means the structural fuel ran out;
`some` carries the source-level outcome.  Fuel only bounds the nesting
recursion and is irrelevant to every property conditioned on success. -/
def runOps : Nat → List Op → ArrState → SharedState → RunRes
  | 0, _, _, _ => none
  | _ + 1, [], a, s => some (.ok (), a, s)
  | f + 1, op :: rest, a, s =>
    match op with
    | .ostr v => stepPush (pushString a v s) (fun _ a1 s1 => runOps f rest a1 s1)
    | .onum x => stepPush (pushNumber a x s) (fun _ a1 s1 => runOps f rest a1 s1)
    | .obool b => stepPush (pushBool a b s) (fun _ a1 s1 => runOps f rest a1 s1)
    | .onull => stepPush (pushNull a s) (fun _ a1 s1 => runOps f rest a1 s1)
    | .oarr sub =>
      stepPush (pushArray a sub.length s) (fun child a1 s1 =>
        stepRun (runOps f sub child s1) a1 (fun child2 s2 =>
          stepFin (finishArr child2 s2) a1 (fun s3 => runOps f rest a1 s3)))
    | .oobj ks =>
      stepPush (pushObject a 0 ks s) (fun child a1 s1 =>
        stepFin (finishObj child s1) a1 (fun s2 => runOps f rest a1 s2))

/-- Builder produced by `tryNewArr 1 ⟨[], 0, []⟩`: one declared element,
node start at byte 5, entry table at byte 7. -/
def exA : ArrState := ⟨1, 5, 7, 0, 1, 0⟩

/-- Shared state after `tryNewArr 1 ⟨[], 0, []⟩`: array tag, zeroed size
field, element count 1, one zeroed entry slot. -/
def exS : SharedState := ⟨[2, 0, 0, 0, 0, 1, 0, 0, 0, 0, 0, 0], 1, []⟩

/-- Nested builder returned by `pushArray exA 0 exS`. -/
def exChild : ArrState := ⟨0, 17, 19, 0, 2, 12⟩

/-- The parent builder after one successful push on `exA`. -/
def exA1 : ArrState := ⟨1, 5, 12, 1, 1, 0⟩

/-- Shared state after `pushArray exA 0 exS`: entry tag 2 (array), offset 7,
then the embedded node's header; depth raised to 2. -/
def exSarr : SharedState :=
  ⟨[2, 0, 0, 0, 0, 1, 0, 2, 7, 0, 0, 0, 2, 0, 0, 0, 0, 0, 0], 2, []⟩

/-- Shared state after finishing the nested builder of `exSarr`: the inner
size field back-patched to 2, depth back to 1. -/
def exSfin : SharedState :=
  ⟨[2, 0, 0, 0, 0, 1, 0, 2, 7, 0, 0, 0, 2, 2, 0, 0, 0, 0, 0], 1, []⟩

/-- Shared state after `pushString exA [97] exS`: entry tag 3 (string),
offset 7, then the length-prefixed text. -/
def exSstr : SharedState :=
  ⟨[2, 0, 0, 0, 0, 1, 0, 3, 7, 0, 0, 0, 1, 97], 1, []⟩

/-- Shared state after `pushString exA [97, 98, 99, 100] exS`. -/
def exSfull : SharedState :=
  ⟨[2, 0, 0, 0, 0, 1, 0, 3, 7, 0, 0, 0, 4, 97, 98, 99, 100], 1, []⟩

/-- Shared state after `pushBool exA true exS`: entry tag 5 (bool), inline
value 1, no data-region bytes. -/
def exSbool : SharedState := ⟨[2, 0, 0, 0, 0, 1, 0, 5, 1, 0, 0, 0], 1, []⟩

/-- Shared state after `pushNull exA exS`: only the entry's type tag 6
(null) is written. -/
def exSnull : SharedState := ⟨[2, 0, 0, 0, 0, 1, 0, 6, 0, 0, 0, 0], 1, []⟩

/-- Same bytes as `exS` but with an allocation oracle whose next
reservation fails. -/
def exSf : SharedState := ⟨[2, 0, 0, 0, 0, 1, 0, 0, 0, 0, 0, 0], 1, [false]⟩

/-- Shared state left behind by the failing `pushString exA [97] exSf`: the
entry slot was written before the reservation failed. -/
def exSferr : SharedState :=
  ⟨[2, 0, 0, 0, 0, 1, 0, 3, 7, 0, 0, 0], 1, [false]⟩

/-- Builder produced by `tryNewArr 0 ⟨[], 0, []⟩`. -/
def exB0 : ArrState := ⟨0, 5, 7, 0, 1, 0⟩

/-- Shared state after `tryNewArr 0 ⟨[], 0, []⟩`. -/
def exT0 : SharedState := ⟨[2, 0, 0, 0, 0, 0, 0], 1, []⟩

/-- Builder produced by `tryNewArr 2 ⟨[], 0, []⟩`. -/
def exA2 : ArrState := ⟨2, 5, 7, 0, 1, 0⟩

/-- Shared state after `tryNewArr 2 ⟨[], 0, []⟩`. -/
def exS2 : SharedState :=
  ⟨[2, 0, 0, 0, 0, 2, 0, 0, 0, 0, 0, 0, 0, 0, 0, 0, 0], 1, []⟩

/-- Builder after running the two-push script of the witnesses on `exA2`. -/
def exA2run : ArrState := ⟨2, 5, 17, 2, 1, 0⟩

/-- Shared state after running `[ostr [97], onum ⟨[5]⟩]` on `exA2`/`exS2`:
entry offsets 12 and 14, then the two data items. -/
def exS2run : SharedState :=
  ⟨[2, 0, 0, 0, 0, 2, 0, 3, 12, 0, 0, 0, 4, 14, 0, 0, 0, 1, 97, 1, 5], 1, []⟩

/-- Same bytes as `exS` but with the shared depth counter at 2, as if a
nested builder were still open. -/
def exSdeep : SharedState := ⟨[2, 0, 0, 0, 0, 1, 0, 0, 0, 0, 0, 0], 2, []⟩

/-- What one successful run of `n` pushes guarantees, relating the builder
and shared state before and after: the node-local fields are fixed, the
entry cursor advances one slot per push, the value count counts the
pushes, depth is restored, the buffer only grows, and bytes below the
entry cursor (in particular every already-written entry and the header)
are untouched. -/
def Post (a : ArrState) (s : SharedState) (n : Nat) (a' : ArrState)
    (s' : SharedState) : Prop :=
  a'.start_pos = a.start_pos ∧
  a'.value_entry_pos = a.value_entry_pos + VALUE_ENTRY_SIZE * n ∧
  a'.value_count = a.value_count + n ∧
  a'.depth = a.depth ∧
  a'.element_count = a.element_count ∧
  a'.bytes_init_len = a.bytes_init_len ∧
  s'.depth = s.depth ∧
  s.bytes.length ≤ s'.bytes.length ∧
  ∀ i, i < a.value_entry_pos → i < s.bytes.length →
    getAt s'.bytes i = getAt s.bytes i

end Yason

namespace Yason

theorem getAt_nil (i : Nat) : getAt [] i = 0 := rfl

theorem getAt_cons_zero (b : Nat) (bs : List Nat) : getAt (b :: bs) 0 = b := rfl

theorem getAt_cons_succ (b : Nat) (bs : List Nat) (i : Nat) :
    getAt (b :: bs) (i + 1) = getAt bs i := rfl

theorem getAt_set_ne (bs : List Nat) (p i x : Nat) (h : i ≠ p) :
    getAt (bs.set p x) i = getAt bs i := by
  induction bs generalizing p i with
  | nil => simp [List.set]
  | cons b bs ih =>
    cases p with
    | zero =>
      cases i with
      | zero => exact absurd rfl h
      | succ i => simp [List.set, getAt_cons_succ]
    | succ p =>
      cases i with
      | zero => simp [List.set, getAt_cons_zero]
      | succ i =>
        simp only [List.set, getAt_cons_succ]
        exact ih p i (fun hc => h (by omega))

theorem getAt_set_self (bs : List Nat) (p x : Nat) (h : p < bs.length) :
    getAt (bs.set p x) p = x := by
  induction bs generalizing p with
  | nil => simp at h
  | cons b bs ih =>
    cases p with
    | zero => simp [List.set, getAt_cons_zero]
    | succ p =>
      simp only [List.set, getAt_cons_succ]
      exact ih p (by simpa using h)

theorem getAt_append_lt (bs t : List Nat) (i : Nat) (h : i < bs.length) :
    getAt (bs ++ t) i = getAt bs i := by
  induction bs generalizing i with
  | nil => simp at h
  | cons b bs ih =>
    cases i with
    | zero => rfl
    | succ i =>
      simp only [List.cons_append, getAt_cons_succ]
      exact ih i (by simpa using h)

theorem getAt_append_right (bs t : List Nat) (i : Nat) :
    getAt (bs ++ t) (bs.length + i) = getAt t i := by
  induction bs with
  | nil => simp [getAt]
  | cons b bs ih =>
    simpa [List.cons_append, Nat.succ_add, getAt_cons_succ] using ih

theorem length_writeBytesAt (new : List Nat) :
    ∀ bs pos, (writeBytesAt bs pos new).length = bs.length := by
  induction new with
  | nil => intro bs pos; rfl
  | cons x rest ih =>
    intro bs pos
    simp [writeBytesAt, ih, List.length_set]

theorem getAt_writeBytesAt_out (new : List Nat) :
    ∀ bs pos i, i < pos ∨ pos + new.length ≤ i →
      getAt (writeBytesAt bs pos new) i = getAt bs i := by
  induction new with
  | nil => intro bs pos i _; rfl
  | cons x rest ih =>
    intro bs pos i h
    simp only [List.length_cons] at h
    simp only [writeBytesAt]
    rw [ih (bs.set pos x) (pos + 1) i (by omega)]
    exact getAt_set_ne bs pos i x (by omega)

theorem getAt_writeBytesAt_in (new : List Nat) :
    ∀ bs pos i, i < new.length → pos + new.length ≤ bs.length →
      getAt (writeBytesAt bs pos new) (pos + i) = getAt new i := by
  induction new with
  | nil => intro bs pos i h _; simp at h
  | cons x rest ih =>
    intro bs pos i hi hb
    cases i with
    | zero =>
      simp only [writeBytesAt, Nat.add_zero]
      rw [getAt_writeBytesAt_out rest (bs.set pos x) (pos + 1) pos (Or.inl (by omega))]
      exact getAt_set_self bs pos x (by simp only [List.length_cons] at hb; omega)
    | succ i =>
      simp only [writeBytesAt, getAt_cons_succ]
      have : pos + (i + 1) = (pos + 1) + i := by omega
      rw [this]
      exact ih (bs.set pos x) (pos + 1) i (by simpa using hi)
        (by simp only [List.length_set, List.length_cons] at *; omega)

theorem le32_length (n : Nat) : (le32 n).length = 4 := rfl

theorem readLe32_writeLe32 (bs : List Nat) (pos n : Nat) (h : pos + 4 ≤ bs.length) :
    readLe32 (writeBytesAt bs pos (le32 n)) pos = n % 2 ^ 32 := by
  have h0 := getAt_writeBytesAt_in (le32 n) bs pos 0 (by simp [le32_length])
    (by simp only [le32_length]; omega)
  have h1 := getAt_writeBytesAt_in (le32 n) bs pos 1 (by simp [le32_length])
    (by simp only [le32_length]; omega)
  have h2 := getAt_writeBytesAt_in (le32 n) bs pos 2 (by simp [le32_length])
    (by simp only [le32_length]; omega)
  have h3 := getAt_writeBytesAt_in (le32 n) bs pos 3 (by simp [le32_length])
    (by simp only [le32_length]; omega)
  simp only [Nat.add_zero] at h0
  simp only [readLe32, h0, h1, h2, h3]
  show n % 256 + 2 ^ 8 * (n / 2 ^ 8 % 256) + 2 ^ 16 * (n / 2 ^ 16 % 256) +
      2 ^ 24 * (n / 2 ^ 24 % 256) = n % 2 ^ 32
  omega

theorem readLe32_congr (bs1 bs2 : List Nat) (pos : Nat)
    (h : ∀ i, i < 4 → getAt bs1 (pos + i) = getAt bs2 (pos + i)) :
    readLe32 bs1 pos = readLe32 bs2 pos := by
  have h0 := h 0 (by omega)
  have h1 := h 1 (by omega)
  have h2 := h 2 (by omega)
  have h3 := h 3 (by omega)
  simp only [Nat.add_zero] at h0
  simp [readLe32, h0, h1, h2, h3]

theorem length_entryWr (bs : List Nat) (vep t fv : Nat) :
    (entryWr bs vep t fv).length = bs.length := by
  simp [entryWr, length_writeBytesAt, List.length_set]

theorem getAt_entryWr_out (bs : List Nat) (vep t fv i : Nat)
    (h : i < vep ∨ vep + 5 ≤ i) :
    getAt (entryWr bs vep t fv) i = getAt bs i := by
  unfold entryWr
  rw [getAt_writeBytesAt_out (le32 fv) (bs.set vep t) (vep + 1) i
    (by simp only [le32_length]; omega)]
  exact getAt_set_ne bs vep i t (by omega)

theorem readLe32_entryWr (bs : List Nat) (vep t fv : Nat)
    (h : vep + 5 ≤ bs.length) :
    readLe32 (entryWr bs vep t fv) (vep + 1) = fv % 2 ^ 32 := by
  unfold entryWr
  exact readLe32_writeLe32 (bs.set vep t) (vep + 1) fv
    (by simp only [List.length_set]; omega)

theorem arrHeader_length (ec : Nat) : (arrHeader ec).length = 7 + 5 * ec := by
  simp [arrHeader, le16, VALUE_ENTRY_SIZE]
  omega

theorem objHeader_length (ec : Nat) : (objHeader ec).length = 7 + 9 * ec := by
  simp [objHeader, le16, KEY_ENTRY_SIZE, VALUE_ENTRY_SIZE]
  omega

theorem tryNewArr_eq (ec : Nat) (s : SharedState)
    (hr : reserveOk s.allocFuel = true) :
    tryNewArr ec s =
      (.ok ⟨ec, s.bytes.length + 5, s.bytes.length + 7, 0, s.depth + 1,
        s.bytes.length⟩,
       ⟨s.bytes ++ arrHeader ec, s.depth + 1, s.allocFuel.tail⟩) := by
  simp only [tryNewArr, tryReserve, hr, if_true]
  refine Prod.ext ?_ ?_
  · simp [ARRAY_SIZE, le16]
  · show SharedState.mk _ _ _ = SharedState.mk _ _ _
    simp [arrHeader, ARRAY_SIZE, List.replicate, List.append_assoc]

theorem tryNewArr_fail (ec : Nat) (s : SharedState)
    (hr : reserveOk s.allocFuel = false) :
    tryNewArr ec s = (.error .TryReserveError, s) := by
  simp [tryNewArr, tryReserve, hr]

theorem tryNewArr_ok_inv (ec : Nat) (s : SharedState) (a : ArrState)
    (h : (tryNewArr ec s).1 = .ok a) : reserveOk s.allocFuel = true := by
  by_cases hr : reserveOk s.allocFuel
  · exact hr
  · rw [tryNewArr_fail ec s (by simpa using hr)] at h
    simp at h

theorem tryNewObj_eq (ec : Nat) (ks : Bool) (s : SharedState)
    (hr : reserveOk s.allocFuel = true) :
    tryNewObj ec ks s =
      (.ok ⟨ec, s.bytes.length + 5, s.bytes.length + 7,
        s.bytes.length + 7 + KEY_ENTRY_SIZE * ec, 0, s.depth + 1,
        s.bytes.length, ks⟩,
       ⟨s.bytes ++ objHeader ec, s.depth + 1, s.allocFuel.tail⟩) := by
  simp only [tryNewObj, tryReserve, hr, if_true]
  refine Prod.ext ?_ ?_
  · simp [ARRAY_SIZE, le16]
  · show SharedState.mk _ _ _ = SharedState.mk _ _ _
    simp [objHeader, ARRAY_SIZE, List.replicate, List.append_assoc]

theorem tryNewObj_fail (ec : Nat) (ks : Bool) (s : SharedState)
    (hr : reserveOk s.allocFuel = false) :
    tryNewObj ec ks s = (.error .TryReserveError, s) := by
  simp [tryNewObj, tryReserve, hr]

theorem tryNewObj_ok_inv (ec : Nat) (ks : Bool) (s : SharedState) (o : ObjState)
    (h : (tryNewObj ec ks s).1 = .ok o) : reserveOk s.allocFuel = true := by
  by_cases hr : reserveOk s.allocFuel
  · exact hr
  · rw [tryNewObj_fail ec ks s (by simpa using hr)] at h
    simp at h

theorem pushBool_eq (a : ArrState) (v : Bool) (s : SharedState)
    (hd : a.depth = s.depth) :
    pushBool a v s = (.ok (), bump a,
      ⟨entryWr s.bytes a.value_entry_pos (dtTag .Bool) (if v then 1 else 0),
       s.depth, s.allocFuel⟩) := by
  simp [pushBool, pushValue, hd, writeOffset, entryWr, bump, DATA_TYPE_SIZE]

theorem pushNull_eq (a : ArrState) (s : SharedState)
    (hd : a.depth = s.depth) :
    pushNull a s = (.ok (), bump a,
      ⟨s.bytes.set a.value_entry_pos (dtTag .Null), s.depth, s.allocFuel⟩) := by
  simp [pushNull, pushValue, hd, bump]

theorem pushString_eq (a : ArrState) (v : List Nat) (s : SharedState)
    (hd : a.depth = s.depth) (hr : reserveOk s.allocFuel = true)
    (hlen : v.length < MAX_STRING_LEN) :
    pushString a v s = (.ok (), bump a,
      ⟨entryWr s.bytes a.value_entry_pos (dtTag .String)
          (s.bytes.length - a.start_pos) ++ (lenPfxBytes v.length ++ v),
       s.depth, s.allocFuel.tail⟩) := by
  simp [pushString, pushValue, hd, tryReserve, hr, pushStringPrim, hlen,
    writeOffset, entryWr, bump, DATA_TYPE_SIZE, List.length_set]

theorem pushString_reserve_fail (a : ArrState) (v : List Nat) (s : SharedState)
    (hd : a.depth = s.depth) (hr : reserveOk s.allocFuel = false) :
    pushString a v s = (.error .TryReserveError, a,
      ⟨entryWr s.bytes a.value_entry_pos (dtTag .String)
          (s.bytes.length - a.start_pos),
       s.depth, s.allocFuel⟩) := by
  simp [pushString, pushValue, hd, tryReserve, hr,
    writeOffset, entryWr, DATA_TYPE_SIZE, List.length_set]

theorem pushString_toolong (a : ArrState) (v : List Nat) (s : SharedState)
    (hd : a.depth = s.depth) (hr : reserveOk s.allocFuel = true)
    (hlen : ¬v.length < MAX_STRING_LEN) :
    pushString a v s = (.error .StringTooLong, a,
      ⟨entryWr s.bytes a.value_entry_pos (dtTag .String)
          (s.bytes.length - a.start_pos),
       s.depth, s.allocFuel.tail⟩) := by
  simp [pushString, pushValue, hd, tryReserve, hr, pushStringPrim, hlen,
    writeOffset, entryWr, DATA_TYPE_SIZE, List.length_set]

theorem pushNumber_eq (a : ArrState) (x : Number) (s : SharedState)
    (hd : a.depth = s.depth) (hr : reserveOk s.allocFuel = true) :
    pushNumber a x s = (.ok (), bump a,
      ⟨entryWr s.bytes a.value_entry_pos (dtTag .Number)
          (s.bytes.length - a.start_pos) ++ numberBytes x,
       s.depth, s.allocFuel.tail⟩) := by
  simp [pushNumber, pushValue, hd, tryReserve, hr,
    writeOffset, entryWr, bump, DATA_TYPE_SIZE, List.length_set]

theorem pushNumber_reserve_fail (a : ArrState) (x : Number) (s : SharedState)
    (hd : a.depth = s.depth) (hr : reserveOk s.allocFuel = false) :
    pushNumber a x s = (.error .TryReserveError, a,
      ⟨entryWr s.bytes a.value_entry_pos (dtTag .Number)
          (s.bytes.length - a.start_pos),
       s.depth, s.allocFuel⟩) := by
  simp [pushNumber, pushValue, hd, tryReserve, hr,
    writeOffset, entryWr, DATA_TYPE_SIZE, List.length_set]

theorem pushArray_eq (a : ArrState) (ec : Nat) (s : SharedState)
    (hd : a.depth = s.depth) (hr : reserveOk s.allocFuel = true) :
    pushArray a ec s =
      (.ok ⟨ec, s.bytes.length + 5, s.bytes.length + 7, 0, s.depth + 1,
        s.bytes.length⟩,
       bump a,
       ⟨entryWr s.bytes a.value_entry_pos (dtTag .Array)
           (s.bytes.length - a.start_pos) ++ arrHeader ec,
        s.depth + 1, s.allocFuel.tail⟩) := by
  have h1 : pushValue a .Array
      (fun off vep s1 => (.ok (), { s1 with
        bytes := writeOffset s1.bytes off (vep + DATA_TYPE_SIZE) })) s =
      (.ok (), bump a,
        ⟨entryWr s.bytes a.value_entry_pos (dtTag .Array)
          (s.bytes.length - a.start_pos), s.depth, s.allocFuel⟩) := by
    simp [pushValue, hd, writeOffset, entryWr, bump, DATA_TYPE_SIZE,
      List.length_set]
  have h2 := tryNewArr_eq ec
    ⟨entryWr s.bytes a.value_entry_pos (dtTag .Array)
      (s.bytes.length - a.start_pos), s.depth, s.allocFuel⟩ hr
  simp only [length_entryWr] at h2
  simp only [pushArray, h1, h2]

theorem pushObject_eq (a : ArrState) (ec : Nat) (ks : Bool) (s : SharedState)
    (hd : a.depth = s.depth) (hr : reserveOk s.allocFuel = true) :
    pushObject a ec ks s =
      (.ok ⟨ec, s.bytes.length + 5, s.bytes.length + 7,
        s.bytes.length + 7 + KEY_ENTRY_SIZE * ec, 0, s.depth + 1,
        s.bytes.length, ks⟩,
       bump a,
       ⟨entryWr s.bytes a.value_entry_pos (dtTag .Object)
           (s.bytes.length - a.start_pos) ++ objHeader ec,
        s.depth + 1, s.allocFuel.tail⟩) := by
  have h1 : pushValue a .Object
      (fun off vep s1 => (.ok (), { s1 with
        bytes := writeOffset s1.bytes off (vep + DATA_TYPE_SIZE) })) s =
      (.ok (), bump a,
        ⟨entryWr s.bytes a.value_entry_pos (dtTag .Object)
          (s.bytes.length - a.start_pos), s.depth, s.allocFuel⟩) := by
    simp [pushValue, hd, writeOffset, entryWr, bump, DATA_TYPE_SIZE,
      List.length_set]
  have h2 := tryNewObj_eq ec ks
    ⟨entryWr s.bytes a.value_entry_pos (dtTag .Object)
      (s.bytes.length - a.start_pos), s.depth, s.allocFuel⟩ hr
  simp only [length_entryWr] at h2
  simp only [pushObject, h1, h2]

theorem pushBool_depth_ne (a : ArrState) (v : Bool) (s : SharedState)
    (hd : a.depth ≠ s.depth) :
    pushBool a v s = (.error .InnerUncompletedError, a, s) := by
  simp [pushBool, pushValue, hd]

theorem pushNull_depth_ne (a : ArrState) (s : SharedState)
    (hd : a.depth ≠ s.depth) :
    pushNull a s = (.error .InnerUncompletedError, a, s) := by
  simp [pushNull, pushValue, hd]

theorem pushString_depth_ne (a : ArrState) (v : List Nat) (s : SharedState)
    (hd : a.depth ≠ s.depth) :
    pushString a v s = (.error .InnerUncompletedError, a, s) := by
  simp [pushString, pushValue, hd]

theorem pushNumber_depth_ne (a : ArrState) (x : Number) (s : SharedState)
    (hd : a.depth ≠ s.depth) :
    pushNumber a x s = (.error .InnerUncompletedError, a, s) := by
  simp [pushNumber, pushValue, hd]

theorem pushArray_depth_ne (a : ArrState) (ec : Nat) (s : SharedState)
    (hd : a.depth ≠ s.depth) :
    pushArray a ec s = (.error .InnerUncompletedError, a, s) := by
  simp [pushArray, pushValue, hd]

theorem pushObject_depth_ne (a : ArrState) (ec : Nat) (ks : Bool)
    (s : SharedState) (hd : a.depth ≠ s.depth) :
    pushObject a ec ks s = (.error .InnerUncompletedError, a, s) := by
  simp [pushObject, pushValue, hd]

theorem finishArr_eq (a : ArrState) (s : SharedState)
    (hd : a.depth = s.depth) (hc : a.value_count = a.element_count) :
    finishArr a s = (.ok a.bytes_init_len,
      ⟨writeBytesAt s.bytes (a.start_pos - 4)
          (le32 (s.bytes.length - a.start_pos)),
       s.depth - 1, s.allocFuel⟩) := by
  simp [finishArr, hd, hc, writeOffset, ARRAY_SIZE]

theorem finishArr_depth_ne (a : ArrState) (s : SharedState)
    (hd : a.depth ≠ s.depth) :
    finishArr a s = (.error .InnerUncompletedError, s) := by
  simp [finishArr, hd]

theorem finishArr_count_ne (a : ArrState) (s : SharedState)
    (hd : a.depth = s.depth) (hc : a.value_count ≠ a.element_count) :
    finishArr a s =
      (.error (.InconsistentElementCount a.element_count a.value_count), s) := by
  simp [finishArr, hd, hc]

theorem finishArr_ok_inv (a : ArrState) (s : SharedState) (n : Nat)
    (h : (finishArr a s).1 = .ok n) :
    a.depth = s.depth ∧ a.value_count = a.element_count := by
  by_cases hd : a.depth = s.depth
  · by_cases hc : a.value_count = a.element_count
    · exact ⟨hd, hc⟩
    · rw [finishArr_count_ne a s hd hc] at h
      simp at h
  · rw [finishArr_depth_ne a s hd] at h
    simp at h

theorem finishObj_eq (o : ObjState) (s : SharedState)
    (hd : o.depth = s.depth) (hc : o.value_count = o.element_count) :
    finishObj o s = (.ok o.bytes_init_len,
      ⟨writeBytesAt s.bytes (o.start_pos - 4)
          (le32 (s.bytes.length - o.start_pos)),
       s.depth - 1, s.allocFuel⟩) := by
  simp [finishObj, hd, hc, writeOffset, ARRAY_SIZE]

theorem finishObj_depth_ne (o : ObjState) (s : SharedState)
    (hd : o.depth ≠ s.depth) :
    finishObj o s = (.error .InnerUncompletedError, s) := by
  simp [finishObj, hd]

theorem finishObj_count_ne (o : ObjState) (s : SharedState)
    (hd : o.depth = s.depth) (hc : o.value_count ≠ o.element_count) :
    finishObj o s =
      (.error (.InconsistentElementCount o.element_count o.value_count), s) := by
  simp [finishObj, hd, hc]

theorem finishObj_ok_inv (o : ObjState) (s : SharedState) (n : Nat)
    (h : (finishObj o s).1 = .ok n) :
    o.depth = s.depth ∧ o.value_count = o.element_count := by
  by_cases hd : o.depth = s.depth
  · by_cases hc : o.value_count = o.element_count
    · exact ⟨hd, hc⟩
    · rw [finishObj_count_ne o s hd hc] at h
      simp at h
  · rw [finishObj_depth_ne o s hd] at h
    simp at h

theorem pushBool_ok_inv (a : ArrState) (v : Bool) (s : SharedState)
    (u : Unit) (h : (pushBool a v s).1 = .ok u) : a.depth = s.depth := by
  by_cases hd : a.depth = s.depth
  · exact hd
  · rw [pushBool_depth_ne a v s hd] at h
    simp at h

theorem pushNull_ok_inv (a : ArrState) (s : SharedState)
    (u : Unit) (h : (pushNull a s).1 = .ok u) : a.depth = s.depth := by
  by_cases hd : a.depth = s.depth
  · exact hd
  · rw [pushNull_depth_ne a s hd] at h
    simp at h

theorem pushString_ok_inv (a : ArrState) (v : List Nat) (s : SharedState)
    (u : Unit) (h : (pushString a v s).1 = .ok u) :
    a.depth = s.depth ∧ reserveOk s.allocFuel = true ∧
      v.length < MAX_STRING_LEN := by
  by_cases hd : a.depth = s.depth
  · by_cases hr : reserveOk s.allocFuel
    · by_cases hlen : v.length < MAX_STRING_LEN
      · exact ⟨hd, hr, hlen⟩
      · rw [pushString_toolong a v s hd hr hlen] at h
        simp at h
    · rw [pushString_reserve_fail a v s hd (by simpa using hr)] at h
      simp at h
  · rw [pushString_depth_ne a v s hd] at h
    simp at h

theorem pushNumber_ok_inv (a : ArrState) (x : Number) (s : SharedState)
    (u : Unit) (h : (pushNumber a x s).1 = .ok u) :
    a.depth = s.depth ∧ reserveOk s.allocFuel = true := by
  by_cases hd : a.depth = s.depth
  · by_cases hr : reserveOk s.allocFuel
    · exact ⟨hd, hr⟩
    · rw [pushNumber_reserve_fail a x s hd (by simpa using hr)] at h
      simp at h
  · rw [pushNumber_depth_ne a x s hd] at h
    simp at h

theorem pushArray_ok_inv (a : ArrState) (ec : Nat) (s : SharedState)
    (b : ArrState) (h : (pushArray a ec s).1 = .ok b) :
    a.depth = s.depth ∧ reserveOk s.allocFuel = true := by
  by_cases hd : a.depth = s.depth
  · by_cases hr : reserveOk s.allocFuel
    · exact ⟨hd, hr⟩
    · have h1 : pushValue a .Array
          (fun off vep s1 => (.ok (), { s1 with
            bytes := writeOffset s1.bytes off (vep + DATA_TYPE_SIZE) })) s =
          (.ok (), bump a,
            ⟨entryWr s.bytes a.value_entry_pos (dtTag .Array)
              (s.bytes.length - a.start_pos), s.depth, s.allocFuel⟩) := by
        simp [pushValue, hd, writeOffset, entryWr, bump, DATA_TYPE_SIZE,
          List.length_set]
      rw [show pushArray a ec s = _ from rfl] at h
      simp only [pushArray, h1] at h
      rw [tryNewArr_fail _ _ (by simpa using hr)] at h
      simp at h
  · rw [pushArray_depth_ne a ec s hd] at h
    simp at h

theorem pushObject_ok_inv (a : ArrState) (ec : Nat) (ks : Bool)
    (s : SharedState) (o : ObjState) (h : (pushObject a ec ks s).1 = .ok o) :
    a.depth = s.depth ∧ reserveOk s.allocFuel = true := by
  by_cases hd : a.depth = s.depth
  · by_cases hr : reserveOk s.allocFuel
    · exact ⟨hd, hr⟩
    · have h1 : pushValue a .Object
          (fun off vep s1 => (.ok (), { s1 with
            bytes := writeOffset s1.bytes off (vep + DATA_TYPE_SIZE) })) s =
          (.ok (), bump a,
            ⟨entryWr s.bytes a.value_entry_pos (dtTag .Object)
              (s.bytes.length - a.start_pos), s.depth, s.allocFuel⟩) := by
        simp [pushValue, hd, writeOffset, entryWr, bump, DATA_TYPE_SIZE,
          List.length_set]
      simp only [pushObject, h1] at h
      rw [tryNewObj_fail _ _ _ (by simpa using hr)] at h
      simp at h
  · rw [pushObject_depth_ne a ec ks s hd] at h
    simp at h

theorem getAt_entryWrApp (bs : List Nat) (vep t fv : Nat) (tail : List Nat)
    (i : Nat) (h1 : i < vep) (h2 : i < bs.length) :
    getAt (entryWr bs vep t fv ++ tail) i = getAt bs i := by
  rw [getAt_append_lt _ _ _ (by rw [length_entryWr]; exact h2)]
  exact getAt_entryWr_out bs vep t fv i (Or.inl h1)

theorem length_entryWrApp (bs : List Nat) (vep t fv : Nat) (tail : List Nat) :
    (entryWr bs vep t fv ++ tail).length = bs.length + tail.length := by
  simp [length_entryWr]

theorem Post.step (a : ArrState) (s : SharedState) (s1 : SharedState)
    (n : Nat) (a' : ArrState) (s' : SharedState)
    (hpost : Post (bump a) s1 n a' s')
    (hd1 : s1.depth = s.depth)
    (hlen1 : s.bytes.length ≤ s1.bytes.length)
    (hframe1 : ∀ i, i < a.value_entry_pos → i < s.bytes.length →
      getAt s1.bytes i = getAt s.bytes i) :
    Post a s (n + 1) a' s' := by
  obtain ⟨p1, p2, p3, p4, p5, p6, p7, p8, p9⟩ := hpost
  simp only [bump, VALUE_ENTRY_SIZE] at p1 p2 p3 p4 p5 p6
  refine ⟨p1, by simp only [VALUE_ENTRY_SIZE]; omega, by omega, p4, p5, p6,
    by omega, by omega, ?_⟩
  intro i hi hilen
  rw [p9 i (by simp [bump]; omega) (by omega)]
  exact hframe1 i hi hilen

theorem runOps_post (f : Nat) : ∀ (ops : List Op) (a : ArrState)
    (s : SharedState) (a' : ArrState) (s' : SharedState),
    runOps f ops a s = some (.ok (), a', s') → Post a s ops.length a' s' := by
  induction f with
  | zero =>
    intro ops a s a' s' h
    simp [runOps] at h
  | succ f ih =>
    intro ops a s a' s' h
    cases ops with
    | nil =>
      simp only [runOps, Option.some.injEq, Prod.mk.injEq, true_and] at h
      obtain ⟨h1, h2⟩ := h
      subst h1; subst h2
      exact ⟨rfl, by simp, by simp, rfl, rfl, rfl, rfl, le_refl _,
        fun i _ _ => rfl⟩
    | cons op rest =>
      cases op with
      | ostr v =>
        simp only [runOps] at h
        rcases hps : pushString a v s with ⟨r, a1, s1⟩
        rw [hps] at h
        cases r with
        | error e => simp [stepPush] at h
        | ok u =>
          simp only [stepPush] at h
          obtain ⟨hd, hr, hlen⟩ := pushString_ok_inv a v s u (by rw [hps])
          rw [pushString_eq a v s hd hr hlen] at hps
          simp only [Prod.mk.injEq] at hps
          obtain ⟨-, ha1, hs1⟩ := hps
          subst ha1; subst hs1
          refine Post.step a s _ rest.length a' s' (ih rest _ _ a' s' h)
            rfl ?_ ?_
          · rw [length_entryWrApp]; omega
          · intro i hi hilen
            exact getAt_entryWrApp _ _ _ _ _ i hi hilen
      | onum x =>
        simp only [runOps] at h
        rcases hps : pushNumber a x s with ⟨r, a1, s1⟩
        rw [hps] at h
        cases r with
        | error e => simp [stepPush] at h
        | ok u =>
          simp only [stepPush] at h
          obtain ⟨hd, hr⟩ := pushNumber_ok_inv a x s u (by rw [hps])
          rw [pushNumber_eq a x s hd hr] at hps
          simp only [Prod.mk.injEq] at hps
          obtain ⟨-, ha1, hs1⟩ := hps
          subst ha1; subst hs1
          refine Post.step a s _ rest.length a' s' (ih rest _ _ a' s' h)
            rfl ?_ ?_
          · rw [length_entryWrApp]; omega
          · intro i hi hilen
            exact getAt_entryWrApp _ _ _ _ _ i hi hilen
      | obool b =>
        simp only [runOps] at h
        rcases hps : pushBool a b s with ⟨r, a1, s1⟩
        rw [hps] at h
        cases r with
        | error e => simp [stepPush] at h
        | ok u =>
          simp only [stepPush] at h
          have hd := pushBool_ok_inv a b s u (by rw [hps])
          rw [pushBool_eq a b s hd] at hps
          simp only [Prod.mk.injEq] at hps
          obtain ⟨-, ha1, hs1⟩ := hps
          subst ha1; subst hs1
          refine Post.step a s _ rest.length a' s' (ih rest _ _ a' s' h)
            rfl ?_ ?_
          · rw [length_entryWr]
          · intro i hi hilen
            exact getAt_entryWr_out _ _ _ _ i (Or.inl hi)
      | onull =>
        simp only [runOps] at h
        rcases hps : pushNull a s with ⟨r, a1, s1⟩
        rw [hps] at h
        cases r with
        | error e => simp [stepPush] at h
        | ok u =>
          simp only [stepPush] at h
          have hd := pushNull_ok_inv a s u (by rw [hps])
          rw [pushNull_eq a s hd] at hps
          simp only [Prod.mk.injEq] at hps
          obtain ⟨-, ha1, hs1⟩ := hps
          subst ha1; subst hs1
          refine Post.step a s _ rest.length a' s' (ih rest _ _ a' s' h)
            rfl (by rw [List.length_set]) ?_
          · intro i hi hilen
            exact getAt_set_ne _ _ _ _ (by omega)
      | oarr sub =>
        simp only [runOps] at h
        rcases hps : pushArray a sub.length s with ⟨r, a1, s1⟩
        rw [hps] at h
        cases r with
        | error e => simp [stepPush] at h
        | ok b =>
          simp only [stepPush] at h
          obtain ⟨hd, hr⟩ := pushArray_ok_inv a sub.length s b (by rw [hps])
          rw [pushArray_eq a sub.length s hd hr] at hps
          simp only [Prod.mk.injEq, Except.ok.injEq] at hps
          obtain ⟨hb, ha1, hs1⟩ := hps
          subst ha1; subst hs1
          rcases hrun : runOps f sub b
              ⟨entryWr s.bytes a.value_entry_pos (dtTag .Array)
                (s.bytes.length - a.start_pos) ++ arrHeader sub.length,
               s.depth + 1, s.allocFuel.tail⟩ with _ | ⟨r2, c2, s2⟩
          · rw [hrun] at h
            simp [stepRun] at h
          · rw [hrun] at h
            cases r2 with
            | error e => simp [stepRun] at h
            | ok u2 =>
              simp only [stepRun] at h
              have hsub := ih sub b _ c2 s2 hrun
              obtain ⟨q1, q2, q3, q4, q5, q6, q7, q8, q9⟩ := hsub
              have e1 : c2.start_pos = s.bytes.length + 5 := by simp [q1, ← hb]
              have e3 : c2.value_count = sub.length := by simp [q3, ← hb]
              have e4 : c2.depth = s.depth + 1 := by simp [q4, ← hb]
              have e5 : c2.element_count = sub.length := by simp [q5, ← hb]
              have e7 : s2.depth = s.depth + 1 := by simpa using q7
              have e8 : s.bytes.length + 7 + 5 * sub.length ≤ s2.bytes.length := by
                have := q8
                simp only [length_entryWrApp, length_entryWr, arrHeader_length] at this
                omega
              rw [finishArr_eq c2 s2 (by rw [e4, e7]) (by rw [e3, e5])] at h
              simp only [stepFin] at h
              have hpost := ih rest (bump a) _ a' s' h
              refine Post.step a s _ rest.length a' s' hpost ?_ ?_ ?_
              · show s2.depth - 1 = s.depth
                omega
              · show s.bytes.length ≤ (writeBytesAt s2.bytes _ _).length
                rw [length_writeBytesAt]
                omega
              · intro i hi hilen
                rw [getAt_writeBytesAt_out
                  (le32 (s2.bytes.length - c2.start_pos)) s2.bytes
                  (c2.start_pos - 4) i (Or.inl (by omega))]
                rw [q9 i (by simp [← hb]; omega)
                  (by simp [length_entryWrApp, length_entryWr, arrHeader_length]; omega)]
                exact getAt_entryWrApp _ _ _ _ _ i hi hilen
      | oobj ks =>
        simp only [runOps] at h
        rcases hps : pushObject a 0 ks s with ⟨r, a1, s1⟩
        rw [hps] at h
        cases r with
        | error e => simp [stepPush] at h
        | ok ob =>
          simp only [stepPush] at h
          obtain ⟨hd, hr⟩ := pushObject_ok_inv a 0 ks s ob (by rw [hps])
          rw [pushObject_eq a 0 ks s hd hr] at hps
          simp only [Prod.mk.injEq, Except.ok.injEq] at hps
          obtain ⟨hb, ha1, hs1⟩ := hps
          subst ha1; subst hs1
          subst hb
          rw [finishObj_eq _ _ rfl rfl] at h
          simp only [stepFin] at h
          have hpost := ih rest (bump a) _ a' s' h
          refine Post.step a s _ rest.length a' s' hpost rfl ?_ ?_
          · simp only [length_writeBytesAt]
            rw [length_entryWrApp]
            omega
          · intro i hi hilen
            rw [getAt_writeBytesAt_out _ _ _ i (Or.inl (by omega))]
            exact getAt_entryWrApp _ _ _ _ _ i hi hilen

theorem lenPfxBytes_pos (n : Nat) : 1 ≤ (lenPfxBytes n).length := by
  unfold lenPfxBytes
  split <;> simp

theorem numberBytes_pos (x : Number) : 1 ≤ (numberBytes x).length := by
  simp [numberBytes]

theorem runOps_cons_decomp (f : Nat) (op : Op) (rest : List Op) (a : ArrState)
    (s : SharedState) (a' : ArrState) (s' : SharedState)
    (h : runOps (f + 1) (op :: rest) a s = some (.ok (), a', s')) :
    ∃ s1, runOps f rest (bump a) s1 = some (.ok (), a', s') ∧
      s1.depth = s.depth ∧
      s.bytes.length ≤ s1.bytes.length ∧
      (op.carriesOffset = true → s.bytes.length < s1.bytes.length) ∧
      (∀ i, i < a.value_entry_pos → i < s.bytes.length →
        getAt s1.bytes i = getAt s.bytes i) ∧
      (op.carriesOffset = true → a.value_entry_pos + 5 ≤ s.bytes.length →
        readLe32 s1.bytes (a.value_entry_pos + 1) =
          (s.bytes.length - a.start_pos) % 2 ^ 32) := by
  cases op with
  | ostr v =>
    simp only [runOps] at h
    rcases hps : pushString a v s with ⟨r, a1, s1⟩
    rw [hps] at h
    cases r with
    | error e => simp [stepPush] at h
    | ok u =>
      simp only [stepPush] at h
      obtain ⟨hd, hr, hlen⟩ := pushString_ok_inv a v s u (by rw [hps])
      rw [pushString_eq a v s hd hr hlen] at hps
      simp only [Prod.mk.injEq] at hps
      obtain ⟨-, ha1, hs1⟩ := hps
      subst ha1; subst hs1
      refine ⟨_, h, rfl, ?_, ?_, ?_, ?_⟩
      · rw [length_entryWrApp]; omega
      · have := lenPfxBytes_pos v.length
        rw [length_entryWrApp]
        intro _
        simp only [List.length_append]
        omega
      · intro i hi hilen
        exact getAt_entryWrApp _ _ _ _ _ i hi hilen
      · intro _ hb5
        rw [readLe32_congr _ (entryWr s.bytes a.value_entry_pos (dtTag .String)
            (s.bytes.length - a.start_pos)) _ ?_]
        · exact readLe32_entryWr _ _ _ _ hb5
        · intro t ht
          exact getAt_append_lt _ _ _ (by rw [length_entryWr]; omega)
  | onum x =>
    simp only [runOps] at h
    rcases hps : pushNumber a x s with ⟨r, a1, s1⟩
    rw [hps] at h
    cases r with
    | error e => simp [stepPush] at h
    | ok u =>
      simp only [stepPush] at h
      obtain ⟨hd, hr⟩ := pushNumber_ok_inv a x s u (by rw [hps])
      rw [pushNumber_eq a x s hd hr] at hps
      simp only [Prod.mk.injEq] at hps
      obtain ⟨-, ha1, hs1⟩ := hps
      subst ha1; subst hs1
      refine ⟨_, h, rfl, ?_, ?_, ?_, ?_⟩
      · rw [length_entryWrApp]; omega
      · have := numberBytes_pos x
        rw [length_entryWrApp]
        intro _
        omega
      · intro i hi hilen
        exact getAt_entryWrApp _ _ _ _ _ i hi hilen
      · intro _ hb5
        rw [readLe32_congr _ (entryWr s.bytes a.value_entry_pos (dtTag .Number)
            (s.bytes.length - a.start_pos)) _ ?_]
        · exact readLe32_entryWr _ _ _ _ hb5
        · intro t ht
          exact getAt_append_lt _ _ _ (by rw [length_entryWr]; omega)
  | obool b =>
    simp only [runOps] at h
    rcases hps : pushBool a b s with ⟨r, a1, s1⟩
    rw [hps] at h
    cases r with
    | error e => simp [stepPush] at h
    | ok u =>
      simp only [stepPush] at h
      have hd := pushBool_ok_inv a b s u (by rw [hps])
      rw [pushBool_eq a b s hd] at hps
      simp only [Prod.mk.injEq] at hps
      obtain ⟨-, ha1, hs1⟩ := hps
      subst ha1; subst hs1
      refine ⟨_, h, rfl, by rw [length_entryWr], ?_, ?_, ?_⟩
      · intro hco; simp [Op.carriesOffset] at hco
      · intro i hi hilen
        exact getAt_entryWr_out _ _ _ _ i (Or.inl hi)
      · intro hco; simp [Op.carriesOffset] at hco
  | onull =>
    simp only [runOps] at h
    rcases hps : pushNull a s with ⟨r, a1, s1⟩
    rw [hps] at h
    cases r with
    | error e => simp [stepPush] at h
    | ok u =>
      simp only [stepPush] at h
      have hd := pushNull_ok_inv a s u (by rw [hps])
      rw [pushNull_eq a s hd] at hps
      simp only [Prod.mk.injEq] at hps
      obtain ⟨-, ha1, hs1⟩ := hps
      subst ha1; subst hs1
      refine ⟨_, h, rfl, by rw [List.length_set], ?_, ?_, ?_⟩
      · intro hco; simp [Op.carriesOffset] at hco
      · intro i hi hilen
        exact getAt_set_ne _ _ _ _ (by omega)
      · intro hco; simp [Op.carriesOffset] at hco
  | oarr sub =>
    simp only [runOps] at h
    rcases hps : pushArray a sub.length s with ⟨r, a1, s1⟩
    rw [hps] at h
    cases r with
    | error e => simp [stepPush] at h
    | ok b =>
      simp only [stepPush] at h
      obtain ⟨hd, hr⟩ := pushArray_ok_inv a sub.length s b (by rw [hps])
      rw [pushArray_eq a sub.length s hd hr] at hps
      simp only [Prod.mk.injEq, Except.ok.injEq] at hps
      obtain ⟨hb, ha1, hs1⟩ := hps
      subst ha1; subst hs1
      rcases hrun : runOps f sub b
          ⟨entryWr s.bytes a.value_entry_pos (dtTag .Array)
            (s.bytes.length - a.start_pos) ++ arrHeader sub.length,
           s.depth + 1, s.allocFuel.tail⟩ with _ | ⟨r2, c2, s2⟩
      · rw [hrun] at h
        simp [stepRun] at h
      · rw [hrun] at h
        cases r2 with
        | error e => simp [stepRun] at h
        | ok u2 =>
          simp only [stepRun] at h
          obtain ⟨q1, q2, q3, q4, q5, q6, q7, q8, q9⟩ :=
            runOps_post f sub b _ c2 s2 hrun
          have e1 : c2.start_pos = s.bytes.length + 5 := by simp [q1, ← hb]
          have e3 : c2.value_count = sub.length := by simp [q3, ← hb]
          have e4 : c2.depth = s.depth + 1 := by simp [q4, ← hb]
          have e5 : c2.element_count = sub.length := by simp [q5, ← hb]
          have e7 : s2.depth = s.depth + 1 := by simpa using q7
          have e8 : s.bytes.length + 7 + 5 * sub.length ≤ s2.bytes.length := by
            have := q8
            simp only [length_entryWrApp, length_entryWr, arrHeader_length] at this
            omega
          rw [finishArr_eq c2 s2 (by rw [e4, e7]) (by rw [e3, e5])] at h
          simp only [stepFin] at h
          refine ⟨_, h, ?_, ?_, ?_, ?_, ?_⟩
          · show s2.depth - 1 = s.depth
            omega
          · show s.bytes.length ≤ (writeBytesAt s2.bytes _ _).length
            rw [length_writeBytesAt]
            omega
          · intro _
            show s.bytes.length < (writeBytesAt s2.bytes _ _).length
            rw [length_writeBytesAt]
            omega
          · intro i hi hilen
            rw [getAt_writeBytesAt_out
              (le32 (s2.bytes.length - c2.start_pos)) s2.bytes
              (c2.start_pos - 4) i (Or.inl (by omega))]
            rw [q9 i (by simp [← hb]; omega)
              (by simp [length_entryWrApp, length_entryWr, arrHeader_length]; omega)]
            exact getAt_entryWrApp _ _ _ _ _ i hi hilen
          · intro _ hb5
            refine Eq.trans (readLe32_congr _
              (entryWr s.bytes a.value_entry_pos (dtTag .Array)
                (s.bytes.length - a.start_pos)) _ ?_)
              (readLe32_entryWr _ _ _ _ hb5)
            intro t ht
            rw [getAt_writeBytesAt_out
              (le32 (s2.bytes.length - c2.start_pos)) s2.bytes
              (c2.start_pos - 4) _ (Or.inl (by omega))]
            rw [q9 _ (by simp [← hb]; omega)
              (by simp [length_entryWrApp, length_entryWr, arrHeader_length]; omega)]
            exact getAt_append_lt _ _ _ (by rw [length_entryWr]; omega)
  | oobj ks =>
    simp only [runOps] at h
    rcases hps : pushObject a 0 ks s with ⟨r, a1, s1⟩
    rw [hps] at h
    cases r with
    | error e => simp [stepPush] at h
    | ok ob =>
      simp only [stepPush] at h
      obtain ⟨hd, hr⟩ := pushObject_ok_inv a 0 ks s ob (by rw [hps])
      rw [pushObject_eq a 0 ks s hd hr] at hps
      simp only [Prod.mk.injEq, Except.ok.injEq] at hps
      obtain ⟨hb, ha1, hs1⟩ := hps
      subst ha1; subst hs1
      subst hb
      rw [finishObj_eq _ _ rfl rfl] at h
      simp only [stepFin] at h
      refine ⟨_, h, rfl, ?_, ?_, ?_, ?_⟩
      · show s.bytes.length ≤ (writeBytesAt _ _ _).length
        rw [length_writeBytesAt, length_entryWrApp]
        omega
      · intro _
        show s.bytes.length < (writeBytesAt _ _ _).length
        rw [length_writeBytesAt, length_entryWrApp, objHeader_length]
        omega
      · intro i hi hilen
        rw [getAt_writeBytesAt_out _ _ _ i (Or.inl (by omega))]
        exact getAt_entryWrApp _ _ _ _ _ i hi hilen
      · intro _ hb5
        refine Eq.trans (readLe32_congr _
          (entryWr s.bytes a.value_entry_pos (dtTag .Object)
            (s.bytes.length - a.start_pos)) _ ?_)
          (readLe32_entryWr _ _ _ _ hb5)
        intro t ht
        rw [getAt_writeBytesAt_out _ _ _ _ (Or.inl (by omega))]
        exact getAt_append_lt _ _ _ (by rw [length_entryWr]; omega)

theorem runOps_field (f : Nat) : ∀ (ops : List Op) (a : ArrState)
    (s : SharedState) (a' : ArrState) (s' : SharedState),
    runOps f ops a s = some (.ok (), a', s') →
    a.value_entry_pos + 5 * ops.length ≤ s.bytes.length →
    a.start_pos ≤ s.bytes.length →
    ∀ k, k < ops.length → (opAt ops k).carriesOffset = true →
      ∃ m, readLe32 s'.bytes (a.value_entry_pos + 5 * k + 1) =
        (m - a.start_pos) % 2 ^ 32 ∧ s.bytes.length ≤ m ∧
        m < s'.bytes.length := by
  induction f with
  | zero =>
    intro ops a s a' s' h
    simp [runOps] at h
  | succ f ih =>
    intro ops a s a' s' h hb hs k hk hco
    cases ops with
    | nil => simp at hk
    | cons op rest =>
      simp only [List.length_cons] at hb hk
      obtain ⟨s1, hrun, hdep, hmono, hstrict, hframe, hfield⟩ :=
        runOps_cons_decomp f op rest a s a' s' h
      obtain ⟨p1, p2, p3, p4, p5, p6, p7, p8, p9⟩ :=
        runOps_post f rest (bump a) s1 a' s' hrun
      cases k with
      | zero =>
        have hco' : op.carriesOffset = true := hco
        have h5 : a.value_entry_pos + 5 ≤ s.bytes.length := by omega
        have hf1 := hfield hco' h5
        refine ⟨s.bytes.length, ?_, le_refl _,
          lt_of_lt_of_le (hstrict hco') p8⟩
        have hpres : readLe32 s'.bytes (a.value_entry_pos + 1) =
            readLe32 s1.bytes (a.value_entry_pos + 1) := by
          apply readLe32_congr
          intro t ht
          apply p9
          · simp only [bump, VALUE_ENTRY_SIZE]
            omega
          · omega
        simp only [Nat.mul_zero, Nat.add_zero]
        rw [hpres, hf1]
      | succ j =>
        have hco' : (opAt rest j).carriesOffset = true := hco
        obtain ⟨m, hm1, hm2, hm3⟩ := ih rest (bump a) s1 a' s' hrun
          (by simp only [bump, VALUE_ENTRY_SIZE]; omega)
          (by show a.start_pos ≤ s1.bytes.length; omega)
          j (by omega) hco'
        simp only [bump, VALUE_ENTRY_SIZE] at hm1
        refine ⟨m, ?_, le_trans hmono hm2, hm3⟩
        rw [show a.value_entry_pos + 5 * (j + 1) + 1 =
          a.value_entry_pos + 5 + 5 * j + 1 from by ring]
        exact hm1

theorem runOps_incr (f : Nat) : ∀ (ops : List Op) (a : ArrState)
    (s : SharedState) (a' : ArrState) (s' : SharedState),
    runOps f ops a s = some (.ok (), a', s') →
    a.value_entry_pos + 5 * ops.length ≤ s.bytes.length →
    a.start_pos ≤ s.bytes.length →
    s'.bytes.length - a.start_pos < 2 ^ 32 →
    ∀ i j, i < j → j < ops.length →
      (opAt ops i).carriesOffset = true →
      (opAt ops j).carriesOffset = true →
      readLe32 s'.bytes (a.value_entry_pos + 5 * i + 1) <
        readLe32 s'.bytes (a.value_entry_pos + 5 * j + 1) := by
  induction f with
  | zero =>
    intro ops a s a' s' h
    simp [runOps] at h
  | succ f ih =>
    intro ops a s a' s' h hb hs h32 i j hij hj hci hcj
    cases ops with
    | nil => simp at hj
    | cons op rest =>
      simp only [List.length_cons] at hb hj
      obtain ⟨s1, hrun, hdep, hmono, hstrict, hframe, hfield⟩ :=
        runOps_cons_decomp f op rest a s a' s' h
      obtain ⟨p1, p2, p3, p4, p5, p6, p7, p8, p9⟩ :=
        runOps_post f rest (bump a) s1 a' s' hrun
      cases j with
      | zero => omega
      | succ j' =>
        cases i with
        | zero =>
          have hco' : op.carriesOffset = true := hci
          have h5 : a.value_entry_pos + 5 ≤ s.bytes.length := by omega
          have hf1 := hfield hco' h5
          have hpres : readLe32 s'.bytes (a.value_entry_pos + 1) =
              readLe32 s1.bytes (a.value_entry_pos + 1) := by
            apply readLe32_congr
            intro t ht
            apply p9
            · simp only [bump, VALUE_ENTRY_SIZE]
              omega
            · omega
          have hcj' : (opAt rest j').carriesOffset = true := hcj
          obtain ⟨m, hm1, hm2, hm3⟩ := runOps_field f rest (bump a) s1 a' s'
            hrun (by simp only [bump, VALUE_ENTRY_SIZE]; omega)
            (by show a.start_pos ≤ s1.bytes.length; omega)
            j' (by omega) hcj'
          simp only [bump, VALUE_ENTRY_SIZE] at hm1
          have e0 : readLe32 s'.bytes (a.value_entry_pos + 5 * 0 + 1) =
              s.bytes.length - a.start_pos := by
            simp only [Nat.mul_zero, Nat.add_zero]
            rw [hpres, hf1]
            exact Nat.mod_eq_of_lt (by omega)
          have eJ : readLe32 s'.bytes
              (a.value_entry_pos + 5 * (j' + 1) + 1) = m - a.start_pos := by
            rw [show a.value_entry_pos + 5 * (j' + 1) + 1 =
              a.value_entry_pos + 5 + 5 * j' + 1 from by ring]
            rw [hm1]
            exact Nat.mod_eq_of_lt (by omega)
          rw [e0, eJ]
          have := hstrict hco'
          omega
        | succ i' =>
          have hci' : (opAt rest i').carriesOffset = true := hci
          have hcj' : (opAt rest j').carriesOffset = true := hcj
          have := ih rest (bump a) s1 a' s' hrun
            (by simp only [bump, VALUE_ENTRY_SIZE]; omega)
            (by show a.start_pos ≤ s1.bytes.length; omega)
            (by show s'.bytes.length - a.start_pos < 2 ^ 32; omega)
            i' j' (by omega) (by omega) hci' hcj'
          simp only [bump, VALUE_ENTRY_SIZE] at this
          rw [show a.value_entry_pos + 5 * (i' + 1) + 1 =
            a.value_entry_pos + 5 + 5 * i' + 1 from by ring]
          rw [show a.value_entry_pos + 5 * (j' + 1) + 1 =
            a.value_entry_pos + 5 + 5 * j' + 1 from by ring]
          exact this

theorem readLe32_entryWrApp (bs : List Nat) (vep t fv : Nat) (tail : List Nat)
    (h : vep + 5 ≤ bs.length) :
    readLe32 (entryWr bs vep t fv ++ tail) (vep + 1) = fv % 2 ^ 32 := by
  refine Eq.trans (readLe32_congr _ (entryWr bs vep t fv) _ ?_)
    (readLe32_entryWr _ _ _ _ h)
  intro u hu
  exact getAt_append_lt _ _ _ (by rw [length_entryWr]; omega)

/-- C3: with no nested builder open, `finish` on an array builder declared
for `N` elements fails with the element-count-mismatch error carrying
`expected = N` and `actual =` the number of successful pushes whenever they
differ (fewer and more alike), and passes the count check — succeeding —
when they are equal. -/
theorem c3_element_count_check (a : ArrState) (s : SharedState)
    (hd : a.depth = s.depth) :
    (a.value_count ≠ a.element_count →
      finishArr a s =
        (.error (.InconsistentElementCount a.element_count a.value_count), s)) ∧
    (a.value_count = a.element_count →
      (finishArr a s).1 = .ok a.bytes_init_len) := by
  constructor
  · intro hc
    exact finishArr_count_ne a s hd hc
  · intro hc
    rw [finishArr_eq a s hd hc]

theorem c3_witness :
    finishArr exA exS =
      (.error (.InconsistentElementCount 1 0), exS) ∧
    (finishArr exB0 exT0).1 = .ok 0 := by
  constructor
  · exact (c3_element_count_check exA exS rfl).1 (by decide)
  · exact (c3_element_count_check exB0 exT0 rfl).2 rfl

/-- C10: a `push_*` call failing the nesting check, or `finish` failing the
nesting or count check, returns the error and leaves everything — the
buffer bytes, the builder's value count and entry cursor, and the shared
depth counter — exactly as it was: both checks precede any mutation. -/
theorem c10_failed_ops_frame :
    (∀ (a : ArrState) (v : Bool) (s : SharedState), a.depth ≠ s.depth →
      pushBool a v s = (.error .InnerUncompletedError, a, s)) ∧
    (∀ (a : ArrState) (s : SharedState), a.depth ≠ s.depth →
      pushNull a s = (.error .InnerUncompletedError, a, s)) ∧
    (∀ (a : ArrState) (v : List Nat) (s : SharedState), a.depth ≠ s.depth →
      pushString a v s = (.error .InnerUncompletedError, a, s)) ∧
    (∀ (a : ArrState) (x : Number) (s : SharedState), a.depth ≠ s.depth →
      pushNumber a x s = (.error .InnerUncompletedError, a, s)) ∧
    (∀ (a : ArrState) (ec : Nat) (s : SharedState), a.depth ≠ s.depth →
      pushArray a ec s = (.error .InnerUncompletedError, a, s)) ∧
    (∀ (a : ArrState) (ec : Nat) (ks : Bool) (s : SharedState),
      a.depth ≠ s.depth →
      pushObject a ec ks s = (.error .InnerUncompletedError, a, s)) ∧
    (∀ (a : ArrState) (s : SharedState), a.depth ≠ s.depth →
      finishArr a s = (.error .InnerUncompletedError, s)) ∧
    (∀ (a : ArrState) (s : SharedState), a.depth = s.depth →
      a.value_count ≠ a.element_count →
      finishArr a s =
        (.error (.InconsistentElementCount a.element_count a.value_count), s)) :=
  ⟨pushBool_depth_ne, pushNull_depth_ne, pushString_depth_ne,
   pushNumber_depth_ne, pushArray_depth_ne, pushObject_depth_ne,
   finishArr_depth_ne, finishArr_count_ne⟩

theorem c10_witness :
    pushBool exA true exSdeep = (.error .InnerUncompletedError, exA, exSdeep) ∧
    finishArr exA exSdeep = (.error .InnerUncompletedError, exSdeep) ∧
    finishArr exA exS =
      (.error (.InconsistentElementCount 1 0), exS) := by
  refine ⟨c10_failed_ops_frame.1 exA true exSdeep (by decide),
    c10_failed_ops_frame.2.2.2.2.2.2.1 exA exSdeep (by decide),
    c10_failed_ops_frame.2.2.2.2.2.2.2 exA exS rfl (by decide)⟩

/-- C5 fails on the code: on a builder declared for 1 element that is
already fully populated (one successful `push_string`), the second push —
the `(N+1)`-th — succeeds instead of being rejected: `push_value` checks
only the nesting depth, never the count, and writes through the entry
cursor into the data region. -/
theorem c5_counterexample :
    tryNewArr 1 ⟨[], 0, []⟩ = (.ok exA, exS) ∧
    pushString exA [97, 98, 99, 100] exS = (.ok (), exA1, exSfull) ∧
    exA1.value_count = exA1.element_count ∧
    (pushBool exA1 true exSfull).1 = .ok () := by decide

/-- C5 as amended: the `(N+1)`-th push on a fully populated builder with no
nested builder open is not rejected — it succeeds, raising the value count
to `N + 1` — and the mismatch is only caught by the following `finish`,
which fails with `InconsistentElementCount` carrying `expected = N`,
`actual = N + 1`. -/
theorem c5_push_beyond_count (a : ArrState) (v : Bool) (s : SharedState)
    (hd : a.depth = s.depth) (hc : a.value_count = a.element_count) :
    (pushBool a v s).1 = .ok () ∧
    (pushBool a v s).2.1.value_count = a.element_count + 1 ∧
    (finishArr (pushBool a v s).2.1 (pushBool a v s).2.2).1 =
      .error (.InconsistentElementCount a.element_count
        (a.element_count + 1)) := by
  rw [pushBool_eq a v s hd]
  refine ⟨rfl, by simp [bump, hc], ?_⟩
  rw [show ((Except.ok (), bump a,
      (⟨entryWr s.bytes a.value_entry_pos (dtTag .Bool)
        (if v then 1 else 0), s.depth, s.allocFuel⟩ : SharedState)) :
      Except BuildError Unit × ArrState × SharedState).2.1 = bump a from rfl]
  rw [finishArr_count_ne (bump a) _ (by simpa [bump] using hd)
    (by simp [bump, hc])]
  simp [bump, hc]

theorem c5_witness :
    (pushBool exA1 true exSfull).1 = .ok () ∧
    (pushBool exA1 true exSfull).2.1.value_count = 2 ∧
    (finishArr (pushBool exA1 true exSfull).2.1
      (pushBool exA1 true exSfull).2.2).1 =
      .error (.InconsistentElementCount 1 2) := by
  have h := c5_push_beyond_count exA1 true exSfull rfl rfl
  exact ⟨h.1, h.2.1, h.2.2⟩

/-- C7 fails on the code: a `push_string` whose reservation fails with the
allocation error has already written the pending entry's type tag and
offset (both writes precede `try_reserve` in the source), so the buffer is
modified by the failing push. -/
theorem c7_counterexample :
    (pushString exA [97] exSf).1 = .error .TryReserveError ∧
    (pushString exA [97] exSf).2.2.bytes ≠ exSf.bytes := by decide

/-- C7 as amended: a `push_string` or `push_number` call that fails (in
particular with the allocation error on the reservation) modifies at most
the 5 bytes of its own pending value entry — written before the
reservation — and nothing else: the buffer length, the shared depth, the
builder's fields, and every byte outside that entry slot (in particular
all bytes written by the preceding successful pushes) are unchanged. -/
theorem c7_failed_push_frame :
    (∀ (a : ArrState) (v : List Nat) (s : SharedState) (e : BuildError)
      (a1 : ArrState) (s1 : SharedState),
      pushString a v s = (.error e, a1, s1) →
      a1 = a ∧ s1.bytes.length = s.bytes.length ∧ s1.depth = s.depth ∧
      ∀ i, i < a.value_entry_pos ∨ a.value_entry_pos + 5 ≤ i →
        getAt s1.bytes i = getAt s.bytes i) ∧
    (∀ (a : ArrState) (x : Number) (s : SharedState) (e : BuildError)
      (a1 : ArrState) (s1 : SharedState),
      pushNumber a x s = (.error e, a1, s1) →
      a1 = a ∧ s1.bytes.length = s.bytes.length ∧ s1.depth = s.depth ∧
      ∀ i, i < a.value_entry_pos ∨ a.value_entry_pos + 5 ≤ i →
        getAt s1.bytes i = getAt s.bytes i) := by
  constructor
  · intro a v s e a1 s1 h
    by_cases hd : a.depth = s.depth
    · by_cases hr : reserveOk s.allocFuel
      · by_cases hlen : v.length < MAX_STRING_LEN
        · rw [pushString_eq a v s hd hr hlen] at h
          simp at h
        · rw [pushString_toolong a v s hd hr hlen] at h
          simp only [Prod.mk.injEq] at h
          obtain ⟨-, ha1, hs1⟩ := h
          subst ha1; subst hs1
          exact ⟨rfl, by rw [length_entryWr], rfl,
            fun i hi => getAt_entryWr_out _ _ _ _ i hi⟩
      · rw [pushString_reserve_fail a v s hd (by simpa using hr)] at h
        simp only [Prod.mk.injEq] at h
        obtain ⟨-, ha1, hs1⟩ := h
        subst ha1; subst hs1
        exact ⟨rfl, by rw [length_entryWr], rfl,
          fun i hi => getAt_entryWr_out _ _ _ _ i hi⟩
    · rw [pushString_depth_ne a v s hd] at h
      simp only [Prod.mk.injEq] at h
      obtain ⟨-, ha1, hs1⟩ := h
      subst ha1; subst hs1
      exact ⟨rfl, rfl, rfl, fun i _ => rfl⟩
  · intro a x s e a1 s1 h
    by_cases hd : a.depth = s.depth
    · by_cases hr : reserveOk s.allocFuel
      · rw [pushNumber_eq a x s hd hr] at h
        simp at h
      · rw [pushNumber_reserve_fail a x s hd (by simpa using hr)] at h
        simp only [Prod.mk.injEq] at h
        obtain ⟨-, ha1, hs1⟩ := h
        subst ha1; subst hs1
        exact ⟨rfl, by rw [length_entryWr], rfl,
          fun i hi => getAt_entryWr_out _ _ _ _ i hi⟩
    · rw [pushNumber_depth_ne a x s hd] at h
      simp only [Prod.mk.injEq] at h
      obtain ⟨-, ha1, hs1⟩ := h
      subst ha1; subst hs1
      exact ⟨rfl, rfl, rfl, fun i _ => rfl⟩

theorem c7_witness :
    (pushString exA [97] exSf).2.1 = exA ∧
    exSferr.bytes.length = exSf.bytes.length ∧
    exSferr.depth = exSf.depth ∧
    getAt exSferr.bytes 6 = getAt exSf.bytes 6 := by
  have h := c7_failed_push_frame.1 exA [97] exSf .TryReserveError exA exSferr
    (by decide)
  exact ⟨by rw [show (pushString exA [97] exSf).2.1 = exA from by decide],
    h.2.1, h.2.2.1, h.2.2.2 6 (Or.inl (by decide))⟩

/-- C4: every successful push of a string, number, embedded array or
embedded object writes into the entry's 4-byte field the offset of the
value's data: the buffer length at the time of the push minus the node's
recorded start position (the first byte of its element-count field). -/
theorem c4_entry_offset :
    (∀ (a : ArrState) (v : List Nat) (s : SharedState) (a1 : ArrState)
      (s1 : SharedState), pushString a v s = (.ok (), a1, s1) →
      a.value_entry_pos + 5 ≤ s.bytes.length →
      s.bytes.length - a.start_pos < 2 ^ 32 →
      readLe32 s1.bytes (a.value_entry_pos + 1) =
        s.bytes.length - a.start_pos) ∧
    (∀ (a : ArrState) (x : Number) (s : SharedState) (a1 : ArrState)
      (s1 : SharedState), pushNumber a x s = (.ok (), a1, s1) →
      a.value_entry_pos + 5 ≤ s.bytes.length →
      s.bytes.length - a.start_pos < 2 ^ 32 →
      readLe32 s1.bytes (a.value_entry_pos + 1) =
        s.bytes.length - a.start_pos) ∧
    (∀ (a : ArrState) (ec : Nat) (s : SharedState) (b : ArrState)
      (a1 : ArrState) (s1 : SharedState),
      pushArray a ec s = (.ok b, a1, s1) →
      a.value_entry_pos + 5 ≤ s.bytes.length →
      s.bytes.length - a.start_pos < 2 ^ 32 →
      readLe32 s1.bytes (a.value_entry_pos + 1) =
        s.bytes.length - a.start_pos) ∧
    (∀ (a : ArrState) (ec : Nat) (ks : Bool) (s : SharedState) (ob : ObjState)
      (a1 : ArrState) (s1 : SharedState),
      pushObject a ec ks s = (.ok ob, a1, s1) →
      a.value_entry_pos + 5 ≤ s.bytes.length →
      s.bytes.length - a.start_pos < 2 ^ 32 →
      readLe32 s1.bytes (a.value_entry_pos + 1) =
        s.bytes.length - a.start_pos) := by
  refine ⟨?_, ?_, ?_, ?_⟩
  · intro a v s a1 s1 h hb h32
    obtain ⟨hd, hr, hlen⟩ := pushString_ok_inv a v s () (by rw [h])
    rw [pushString_eq a v s hd hr hlen] at h
    simp only [Prod.mk.injEq] at h
    obtain ⟨-, -, hs1⟩ := h
    subst hs1
    exact (readLe32_entryWrApp s.bytes a.value_entry_pos (dtTag .String)
      (s.bytes.length - a.start_pos) (lenPfxBytes v.length ++ v) hb).trans
      (Nat.mod_eq_of_lt h32)
  · intro a x s a1 s1 h hb h32
    obtain ⟨hd, hr⟩ := pushNumber_ok_inv a x s () (by rw [h])
    rw [pushNumber_eq a x s hd hr] at h
    simp only [Prod.mk.injEq] at h
    obtain ⟨-, -, hs1⟩ := h
    subst hs1
    exact (readLe32_entryWrApp s.bytes a.value_entry_pos (dtTag .Number)
      (s.bytes.length - a.start_pos) (numberBytes x) hb).trans
      (Nat.mod_eq_of_lt h32)
  · intro a ec s b a1 s1 h hb h32
    obtain ⟨hd, hr⟩ := pushArray_ok_inv a ec s b (by rw [h])
    rw [pushArray_eq a ec s hd hr] at h
    simp only [Prod.mk.injEq] at h
    obtain ⟨-, -, hs1⟩ := h
    subst hs1
    exact (readLe32_entryWrApp s.bytes a.value_entry_pos (dtTag .Array)
      (s.bytes.length - a.start_pos) (arrHeader ec) hb).trans
      (Nat.mod_eq_of_lt h32)
  · intro a ec ks s ob a1 s1 h hb h32
    obtain ⟨hd, hr⟩ := pushObject_ok_inv a ec ks s ob (by rw [h])
    rw [pushObject_eq a ec ks s hd hr] at h
    simp only [Prod.mk.injEq] at h
    obtain ⟨-, -, hs1⟩ := h
    subst hs1
    exact (readLe32_entryWrApp s.bytes a.value_entry_pos (dtTag .Object)
      (s.bytes.length - a.start_pos) (objHeader ec) hb).trans
      (Nat.mod_eq_of_lt h32)

theorem c4_witness :
    readLe32 exSstr.bytes 8 = 7 ∧ readLe32 exSarr.bytes 8 = 7 := by
  refine ⟨c4_entry_offset.1 exA [97] exS exA1 exSstr (by decide) (by decide)
    (by decide), ?_⟩
  exact c4_entry_offset.2.2.1 exA 0 exS exChild exA1 exSarr (by decide)
    (by decide) (by decide)

/-- C6: a successful `push_bool v` stores the boolean directly in the
entry's 4-byte field — 1 for true, 0 for false — and leaves the buffer
length unchanged; a successful `push_null` writes only the entry's type
tag and leaves the buffer length unchanged: both consume zero data-region
bytes. -/
theorem c6_inline_bool_null :
    (∀ (a : ArrState) (v : Bool) (s : SharedState) (a1 : ArrState)
      (s1 : SharedState), pushBool a v s = (.ok (), a1, s1) →
      a.value_entry_pos + 5 ≤ s.bytes.length →
      readLe32 s1.bytes (a.value_entry_pos + 1) = (if v then 1 else 0) ∧
      s1.bytes.length = s.bytes.length) ∧
    (∀ (a : ArrState) (s : SharedState) (a1 : ArrState) (s1 : SharedState),
      pushNull a s = (.ok (), a1, s1) →
      s1.bytes = s.bytes.set a.value_entry_pos (dtTag .Null) ∧
      s1.bytes.length = s.bytes.length) := by
  constructor
  · intro a v s a1 s1 h hb
    have hd := pushBool_ok_inv a v s () (by rw [h])
    rw [pushBool_eq a v s hd] at h
    simp only [Prod.mk.injEq] at h
    obtain ⟨-, -, hs1⟩ := h
    subst hs1
    refine ⟨?_, by rw [length_entryWr]⟩
    refine (readLe32_entryWr s.bytes a.value_entry_pos (dtTag .Bool)
      (if v then 1 else 0) hb).trans (Nat.mod_eq_of_lt ?_)
    cases v <;> norm_num
  · intro a s a1 s1 h
    have hd := pushNull_ok_inv a s () (by rw [h])
    rw [pushNull_eq a s hd] at h
    simp only [Prod.mk.injEq] at h
    obtain ⟨-, -, hs1⟩ := h
    subst hs1
    exact ⟨rfl, by rw [List.length_set]⟩

theorem c6_witness :
    readLe32 exSbool.bytes 8 = 1 ∧
    exSbool.bytes.length = exS.bytes.length ∧
    exSnull.bytes.length = exS.bytes.length := by
  have h1 := c6_inline_bool_null.1 exA true exS exA1 exSbool (by decide)
    (by decide)
  have h2 := c6_inline_bool_null.2 exA exS exA1 exSnull (by decide)
  exact ⟨h1.1, h1.2, h2.2⟩

/-- C2: after an array builder `A` pushes an embedded array or object and
receives the nested builder `B`, every `push_*` and `finish` on `A` fails
with `InnerUncompletedError` in any state whose shared depth is the one
`B`'s creation produced (that is, while `B` is open); once `B`'s own
`finish` succeeds, the depth is restored, the nesting check on `A` passes
again, and `A`'s operations resume. -/
theorem c2_nesting_enforcement :
    (∀ (a : ArrState) (s : SharedState) (ec : Nat) (b : ArrState)
      (a1 : ArrState) (s1 : SharedState),
      pushArray a ec s = (.ok b, a1, s1) →
      (∀ t : SharedState, t.depth = s1.depth →
        (∀ v, pushBool a1 v t = (.error .InnerUncompletedError, a1, t)) ∧
        pushNull a1 t = (.error .InnerUncompletedError, a1, t) ∧
        (∀ v, pushString a1 v t = (.error .InnerUncompletedError, a1, t)) ∧
        (∀ x, pushNumber a1 x t = (.error .InnerUncompletedError, a1, t)) ∧
        (∀ m, pushArray a1 m t = (.error .InnerUncompletedError, a1, t)) ∧
        (∀ m ks, pushObject a1 m ks t =
          (.error .InnerUncompletedError, a1, t)) ∧
        finishArr a1 t = (.error .InnerUncompletedError, t)) ∧
      (∀ (t : SharedState) (n : Nat) (t2 : SharedState),
        finishArr b t = (.ok n, t2) →
        (pushNull a1 t2).1 = .ok () ∧
        (finishArr a1 t2).1 ≠ .error .InnerUncompletedError)) ∧
    (∀ (a : ArrState) (s : SharedState) (ec : Nat) (ks : Bool)
      (ob : ObjState) (a1 : ArrState) (s1 : SharedState),
      pushObject a ec ks s = (.ok ob, a1, s1) →
      (∀ t : SharedState, t.depth = s1.depth →
        (∀ v, pushBool a1 v t = (.error .InnerUncompletedError, a1, t)) ∧
        pushNull a1 t = (.error .InnerUncompletedError, a1, t) ∧
        (∀ v, pushString a1 v t = (.error .InnerUncompletedError, a1, t)) ∧
        (∀ x, pushNumber a1 x t = (.error .InnerUncompletedError, a1, t)) ∧
        (∀ m, pushArray a1 m t = (.error .InnerUncompletedError, a1, t)) ∧
        (∀ m ks2, pushObject a1 m ks2 t =
          (.error .InnerUncompletedError, a1, t)) ∧
        finishArr a1 t = (.error .InnerUncompletedError, t)) ∧
      (∀ (t : SharedState) (n : Nat) (t2 : SharedState),
        finishObj ob t = (.ok n, t2) →
        (pushNull a1 t2).1 = .ok () ∧
        (finishArr a1 t2).1 ≠ .error .InnerUncompletedError)) := by
  constructor
  · intro a s ec b a1 s1 h
    obtain ⟨hd, hr⟩ := pushArray_ok_inv a ec s b (by rw [h])
    rw [pushArray_eq a ec s hd hr] at h
    simp only [Prod.mk.injEq, Except.ok.injEq] at h
    obtain ⟨hb, ha1, hs1⟩ := h
    subst hb; subst ha1; subst hs1
    constructor
    · intro t ht
      have ht' : t.depth = s.depth + 1 := ht
      have hdne : (bump a).depth ≠ t.depth := by
        show a.depth ≠ t.depth
        omega
      exact ⟨fun v => pushBool_depth_ne _ v t hdne,
        pushNull_depth_ne _ t hdne,
        fun v => pushString_depth_ne _ v t hdne,
        fun x => pushNumber_depth_ne _ x t hdne,
        fun m => pushArray_depth_ne _ m t hdne,
        fun m ks => pushObject_depth_ne _ m ks t hdne,
        finishArr_depth_ne _ t hdne⟩
    · intro t n t2 hf
      obtain ⟨hbd, hbc⟩ := finishArr_ok_inv _ t n (by rw [hf])
      rw [finishArr_eq _ t hbd hbc] at hf
      simp only [Prod.mk.injEq, Except.ok.injEq] at hf
      obtain ⟨-, ht2⟩ := hf
      subst ht2
      have hbdep : s.depth + 1 = t.depth := hbd
      have hdd : (bump a).depth =
          (⟨writeBytesAt t.bytes
              ((⟨ec, s.bytes.length + 5, s.bytes.length + 7, 0, s.depth + 1,
                s.bytes.length⟩ : ArrState).start_pos - 4)
              (le32 (t.bytes.length -
                (⟨ec, s.bytes.length + 5, s.bytes.length + 7, 0, s.depth + 1,
                  s.bytes.length⟩ : ArrState).start_pos)),
            t.depth - 1, t.allocFuel⟩ : SharedState).depth := by
        show a.depth = t.depth - 1
        omega
      constructor
      · rw [pushNull_eq _ _ hdd]
      · by_cases hcnt : (bump a).value_count = (bump a).element_count
        · rw [finishArr_eq _ _ hdd hcnt]
          simp
        · rw [finishArr_count_ne _ _ hdd hcnt]
          simp
  · intro a s ec ks ob a1 s1 h
    obtain ⟨hd, hr⟩ := pushObject_ok_inv a ec ks s ob (by rw [h])
    rw [pushObject_eq a ec ks s hd hr] at h
    simp only [Prod.mk.injEq, Except.ok.injEq] at h
    obtain ⟨hb, ha1, hs1⟩ := h
    subst hb; subst ha1; subst hs1
    constructor
    · intro t ht
      have ht' : t.depth = s.depth + 1 := ht
      have hdne : (bump a).depth ≠ t.depth := by
        show a.depth ≠ t.depth
        omega
      exact ⟨fun v => pushBool_depth_ne _ v t hdne,
        pushNull_depth_ne _ t hdne,
        fun v => pushString_depth_ne _ v t hdne,
        fun x => pushNumber_depth_ne _ x t hdne,
        fun m => pushArray_depth_ne _ m t hdne,
        fun m ks2 => pushObject_depth_ne _ m ks2 t hdne,
        finishArr_depth_ne _ t hdne⟩
    · intro t n t2 hf
      obtain ⟨hbd, hbc⟩ := finishObj_ok_inv _ t n (by rw [hf])
      rw [finishObj_eq _ t hbd hbc] at hf
      simp only [Prod.mk.injEq, Except.ok.injEq] at hf
      obtain ⟨-, ht2⟩ := hf
      subst ht2
      have hbdep : s.depth + 1 = t.depth := hbd
      have hdd : (bump a).depth =
          (⟨writeBytesAt t.bytes
              ((⟨ec, s.bytes.length + 5, s.bytes.length + 7,
                s.bytes.length + 7 + KEY_ENTRY_SIZE * ec, 0, s.depth + 1,
                s.bytes.length, ks⟩ : ObjState).start_pos - 4)
              (le32 (t.bytes.length -
                (⟨ec, s.bytes.length + 5, s.bytes.length + 7,
                  s.bytes.length + 7 + KEY_ENTRY_SIZE * ec, 0, s.depth + 1,
                  s.bytes.length, ks⟩ : ObjState).start_pos)),
            t.depth - 1, t.allocFuel⟩ : SharedState).depth := by
        show a.depth = t.depth - 1
        omega
      constructor
      · rw [pushNull_eq _ _ hdd]
      · by_cases hcnt : (bump a).value_count = (bump a).element_count
        · rw [finishArr_eq _ _ hdd hcnt]
          simp
        · rw [finishArr_count_ne _ _ hdd hcnt]
          simp

theorem c2_witness :
    pushBool exA1 true exSarr = (.error .InnerUncompletedError, exA1, exSarr) ∧
    finishArr exA1 exSarr = (.error .InnerUncompletedError, exSarr) ∧
    (pushNull exA1 exSfin).1 = .ok () ∧
    (finishArr exA1 exSfin).1 ≠ .error .InnerUncompletedError := by
  have h := c2_nesting_enforcement.1 exA exS 0 exChild exA1 exSarr (by decide)
  have h1 := h.1 exSarr rfl
  have h2 := h.2 exSarr 12 exSfin (by decide)
  exact ⟨h1.1 true, h1.2.2.2.2.2.2, h2.1, h2.2⟩

/-- C9: the entry cursor of a freshly created array builder points right
after the 2-byte element-count field, the value count starts at zero, and
every successful run of pushes advances the cursor by exactly one 5-byte
slot per push and the value count by exactly one per push, so after any
successful run the cursor sits at the table start plus five times the
value count, which counts exactly the successful pushes. -/
theorem c9_entry_cursor_invariant :
    (∀ (ec : Nat) (s : SharedState) (a : ArrState) (s1 : SharedState),
      tryNewArr ec s = (.ok a, s1) →
      a.value_entry_pos = a.start_pos + ELEMENT_COUNT_SIZE ∧
      a.value_count = 0) ∧
    (∀ (f : Nat) (ops : List Op) (a : ArrState) (s : SharedState)
      (a' : ArrState) (s' : SharedState),
      runOps f ops a s = some (.ok (), a', s') →
      a'.value_entry_pos = a.value_entry_pos + VALUE_ENTRY_SIZE * ops.length ∧
      a'.value_count = a.value_count + ops.length ∧
      a'.start_pos = a.start_pos) := by
  constructor
  · intro ec s a s1 h
    have hr := tryNewArr_ok_inv ec s a (by rw [h])
    rw [tryNewArr_eq ec s hr] at h
    simp only [Prod.mk.injEq, Except.ok.injEq] at h
    obtain ⟨ha, -⟩ := h
    subst ha
    exact ⟨by simp [ELEMENT_COUNT_SIZE], rfl⟩
  · intro f ops a s a' s' h
    obtain ⟨p1, p2, p3, -, -, -, -, -, -⟩ := runOps_post f ops a s a' s' h
    exact ⟨p2, p3, p1⟩

theorem c9_witness :
    exA2.value_entry_pos = exA2.start_pos + ELEMENT_COUNT_SIZE ∧
    exA2run.value_entry_pos =
      exA2.value_entry_pos + VALUE_ENTRY_SIZE * 2 ∧
    exA2run.value_count = 2 := by
  have h1 := c9_entry_cursor_invariant.1 2 ⟨[], 0, []⟩ exA2 exS2 (by decide)
  have h2 := c9_entry_cursor_invariant.2 3 [.ostr [97], .onum ⟨[5]⟩]
    exA2 exS2 exA2run exS2run (by decide)
  exact ⟨h1.1, h2.1, h2.2.1⟩

/-- C8: in an array builder whose declared values are all pushed in order
(a successful run of as many pushes as declared, starting from value count
zero, with the entry table inside the buffer), the offsets stored in the
entries of the offset-carrying kinds — composite, string, number — are
strictly increasing with the entry index. -/
theorem c8_offsets_increasing (f : Nat) (ops : List Op) (a : ArrState)
    (s : SharedState) (a' : ArrState) (s' : SharedState)
    (h : runOps f ops a s = some (.ok (), a', s'))
    (_hvc : a.value_count = 0) (_hecl : ops.length = a.element_count)
    (hb : a.value_entry_pos + 5 * ops.length ≤ s.bytes.length)
    (hs : a.start_pos ≤ s.bytes.length)
    (h32 : s'.bytes.length - a.start_pos < 2 ^ 32) :
    ∀ i j, i < j → j < ops.length →
      (opAt ops i).carriesOffset = true →
      (opAt ops j).carriesOffset = true →
      readLe32 s'.bytes (a.value_entry_pos + 5 * i + 1) <
        readLe32 s'.bytes (a.value_entry_pos + 5 * j + 1) := by
  intro i j hij hj hci hcj
  exact runOps_incr f ops a s a' s' h hb hs h32 i j hij hj hci hcj

theorem c8_witness :
    readLe32 exS2run.bytes 8 < readLe32 exS2run.bytes 13 := by
  have h := c8_offsets_increasing 3 [.ostr [97], .onum ⟨[5]⟩] exA2 exS2
    exA2run exS2run (by decide) rfl rfl (by decide) (by decide) (by decide)
    0 1 (by decide) (by decide) (by decide) (by decide)
  exact h

/-- C1: the 4-byte size field of an array node is written as a zero
placeholder at creation, no push ever touches the bytes below the node's
start (where the size field lives), and a succeeding `finish` back-patches
it — touching nothing else and adding no bytes — with exactly the number
of bytes from the first byte of the element-count field to the buffer end
at that moment. -/
theorem c1_size_backpatch :
    (∀ (ec : Nat) (s : SharedState) (a : ArrState) (s1 : SharedState),
      tryNewArr ec s = (.ok a, s1) →
      readLe32 s1.bytes (a.start_pos - 4) = 0) ∧
    (∀ (f : Nat) (ops : List Op) (a : ArrState) (s : SharedState)
      (a' : ArrState) (s' : SharedState),
      runOps f ops a s = some (.ok (), a', s') →
      a.start_pos ≤ a.value_entry_pos →
      ∀ i, i < a.start_pos → i < s.bytes.length →
        getAt s'.bytes i = getAt s.bytes i) ∧
    (∀ (a : ArrState) (s : SharedState),
      a.depth = s.depth → a.value_count = a.element_count →
      4 ≤ a.start_pos → a.start_pos ≤ s.bytes.length →
      s.bytes.length - a.start_pos < 2 ^ 32 →
      (finishArr a s).1 = .ok a.bytes_init_len ∧
      readLe32 (finishArr a s).2.bytes (a.start_pos - 4) =
        s.bytes.length - a.start_pos ∧
      (finishArr a s).2.bytes.length = s.bytes.length ∧
      ∀ i, i + 4 < a.start_pos ∨ a.start_pos ≤ i →
        getAt (finishArr a s).2.bytes i = getAt s.bytes i) := by
  refine ⟨?_, ?_, ?_⟩
  · intro ec s a s1 h
    have hr := tryNewArr_ok_inv ec s a (by rw [h])
    rw [tryNewArr_eq ec s hr] at h
    simp only [Prod.mk.injEq, Except.ok.injEq] at h
    obtain ⟨ha, hs1⟩ := h
    subst ha; subst hs1
    show readLe32 (s.bytes ++ arrHeader ec) (s.bytes.length + 5 - 4) = 0
    have e : s.bytes.length + 5 - 4 = s.bytes.length + 1 := by omega
    rw [e]
    have a1 : getAt (arrHeader ec) 1 = 0 := rfl
    have a2 : getAt (arrHeader ec) 2 = 0 := rfl
    have a3 : getAt (arrHeader ec) 3 = 0 := rfl
    have a4 : getAt (arrHeader ec) 4 = 0 := rfl
    simp only [readLe32,
      show s.bytes.length + 1 + 1 = s.bytes.length + 2 from by omega,
      show s.bytes.length + 1 + 2 = s.bytes.length + 3 from by omega,
      show s.bytes.length + 1 + 3 = s.bytes.length + 4 from by omega,
      getAt_append_right s.bytes (arrHeader ec) 1,
      getAt_append_right s.bytes (arrHeader ec) 2,
      getAt_append_right s.bytes (arrHeader ec) 3,
      getAt_append_right s.bytes (arrHeader ec) 4,
      a1, a2, a3, a4]
    omega
  · intro f ops a s a' s' h hsv i hi hilen
    obtain ⟨-, -, -, -, -, -, -, -, p9⟩ := runOps_post f ops a s a' s' h
    exact p9 i (by omega) hilen
  · intro a s hd hc h4 hlen h32
    rw [finishArr_eq a s hd hc]
    refine ⟨rfl, ?_, ?_, ?_⟩
    · exact (readLe32_writeLe32 s.bytes _ _ (by omega)).trans
        (Nat.mod_eq_of_lt h32)
    · exact length_writeBytesAt _ _ _
    · intro i hi
      exact getAt_writeBytesAt_out _ _ _ i
        (by simp only [le32_length]; omega)

theorem c1_witness :
    readLe32 exT0.bytes 1 = 0 ∧
    (finishArr exB0 exT0).1 = .ok 0 ∧
    readLe32 (finishArr exB0 exT0).2.bytes 1 = 2 ∧
    (finishArr exB0 exT0).2.bytes.length = 7 := by
  have h1 := c1_size_backpatch.1 0 ⟨[], 0, []⟩ exB0 exT0 (by decide)
  have h3 := c1_size_backpatch.2.2 exB0 exT0 rfl rfl (by decide) (by decide)
    (by decide)
  exact ⟨h1, h3.1, h3.2.1, h3.2.2.1⟩

end Yason
